import Mathlib

/-!
Verification of the topological-sort core of the repository: the three
sorters (`topological_sort_kahn`, `topological_sort_dfs`,
`topological_sort_bfs`) and the validator
(`validate_topological_order`), shallowly embedded from
`src/algorithms/kahn.py`, `src/algorithms/dfs.py`, `src/algorithms/bfs.py`.

Modelling conventions:
* A Python dict `{node: [succ, ...]}` is an association list
  `List (String × List String)` in key-insertion order; a well-formed
  dict has `Nodup` keys.
* Machine floats/time: the only impure quantity, the measured
  `execution_time_ms`, is passed in as an integer parameter `t`; the
  empty-graph fast paths hard-code `0` as the source does.
* A metrics dict is an association list `List (String × Int)` in the
  literal's insertion order.
* A raised `ValueError` is an `Except` error; the three distinct raise
  sites carry structurally distinct payloads mirroring the information
  present in each message: Kahn's message interpolates the set of
  remaining (never dequeued) nodes, DFS's message interpolates the
  offending node, BFS's message is a fixed string with no node data.
-/

namespace TopoSort

/-- A directed graph as an adjacency association list, mirroring the
Python dict `{node: [successors]}` in key-insertion order. -/
abbrev Graph := List (String × List String)

/-- The keys of the graph dict, in order. -/
def keysOf (g : Graph) : List String := g.map (fun p => p.1)

/-- `graph.get(node, [])`: adjacency list of `u`, or `[]` when `u` is
not a key. -/
def succs : Graph → String → List String
  | [], _ => []
  | p :: g, u => if p.1 == u then p.2 else succs g u

/-- All successor ids appearing in any adjacency list, with multiplicity. -/
def allSuccs (g : Graph) : List String := (g.map (fun p => p.2)).flatten

/-- The edge relation of the graph: `v` is listed among `u`'s successors. -/
def Edge (g : Graph) (u v : String) : Prop := v ∈ succs g u

/-- The universe of node ids mentioned by the graph: keys and successors,
deduplicated (first occurrence kept). -/
def nodesOf (g : Graph) : List String := (keysOf g ++ allSuccs g).dedup

/-- Number of distinct node ids mentioned by the graph (keys or successors). -/
def distinctNodeCount (g : Graph) : Nat := (nodesOf g).length

/-- There is a nonempty edge walk from `v` back to `v`. -/
def HasCycleAt (g : Graph) (v : String) : Prop :=
  ∃ l : List String, List.Chain (Edge g) v l ∧ l.getLast? = some v

/-- The graph has a directed cycle. -/
def HasCycle (g : Graph) : Prop := ∃ v, HasCycleAt g v

/-- The graph is acyclic: no directed cycle. -/
def Acyclic (g : Graph) : Prop := ¬ HasCycle g

/-- The one error kind of the core, a raised `ValueError`.  Each raise
site carries exactly the diagnostic data its message interpolates. -/
inductive SortError where
  /-- Kahn: `ValueError(f"Graph contains cycle involving nodes: {remaining}")`. -/
  | cycleNodes (remaining : List String)
  /-- BFS: `ValueError("Graph contains a cycle - topological sort impossible")`. -/
  | cycleMsg (msg : String)
  /-- DFS: `ValueError(f"Cycle detected involving node: {node}")`. -/
  | cycleAt (node : String)
  /-- Fuel exhaustion of the DFS step machine; provably unreachable at the
  fuel budget the embedding supplies. -/
  | fuelOut
deriving DecidableEq, Repr

/-- A metrics record: a Python dict literal of numeric values, in
insertion order. -/
abbrev Metrics := List (String × Int)

/-! ## In-degree table (shared bootstrap of Kahn and BFS) -/

/-- An in-degree table: dict node ↦ count, in insertion order. -/
abbrev Indeg := List (String × Int)

/-- `in_degree.get(v, 0)`-style read of the table. -/
def lookup0 : Indeg → String → Int
  | [], _ => 0
  | p :: m, v => if p.1 == v then p.2 else lookup0 m v

/-- `in_degree[v] = in_degree.get(v, 0) + 1`: increment, appending a new
entry at the end when `v` is not yet a key. -/
def bump : Indeg → String → Indeg
  | [], v => [(v, 1)]
  | p :: m, v => if p.1 == v then (p.1, p.2 + 1) :: m else p :: bump m v

/-- The zero-initialized in-degree table over the graph keys. -/
def initIndeg (g : Graph) : Indeg := g.map (fun p => (p.1, (0 : Int)))

/-- The in-degree table after scanning every adjacency list
(`for node in graph: for neighbor in graph[node]: bump`). -/
def computeIndeg (g : Graph) : Indeg :=
  g.foldl (fun m p => p.2.foldl bump m) (initIndeg g)

/-- Total number of edges scanned (`edge_count`). -/
def edgeTotal (g : Graph) : Nat := (g.map (fun p => p.2.length)).sum

/-- `in_degree[v] -= 1`: decrement the entry of `v` (first match; keys
are unique in a well-formed table). -/
def decKey : Indeg → String → Indeg
  | [], _ => []
  | p :: m, v => if p.1 == v then (p.1, p.2 - 1) :: m else p :: decKey m v

/-- Process the successor list of a dequeued node: decrement each
successor's in-degree and append it to the queue when the new value is
zero. -/
def stepSuccs (m : Indeg) (q : List String) (ns : List String) :
    Indeg × List String :=
  ns.foldl
    (fun acc v =>
      let m2 := decKey acc.1 v
      if lookup0 m2 v == 0 then (m2, acc.2 ++ [v]) else (m2, acc.2))
    (m, q)

/-- The Kahn worklist loop (`while queue:`), fuelled; one fuel unit per
dequeue.  With the fuel budget the embedding supplies, the fuel never
runs out (the loop always terminates with an empty queue). -/
def kahnLoop (g : Graph) : Nat → Indeg → List String → List String →
    Indeg × List String
  | 0, m, _, res => (m, res)
  | _ + 1, m, [], res => (m, res)
  | fuel + 1, m, c :: q, res =>
    let p := stepSuccs m q (succs g c)
    kahnLoop g fuel p.1 p.2 (res ++ [c])

/-- Fuel budget used for the queue loops; provably at least the loop's
termination measure. -/
def loopFuel (m : Indeg) : Nat := 3 * m.length + 1

/-- The seed queue: table keys of in-degree `0`, in table order. -/
def seedQueue (m : Indeg) : List String :=
  (m.filter (fun p => p.2 == 0)).map (fun p => p.1)

/-- The sequence of nodes the Kahn loop ever dequeues (its `result`). -/
def kahnDequeued (g : Graph) : List String :=
  (kahnLoop g (loopFuel (computeIndeg g)) (computeIndeg g)
    (seedQueue (computeIndeg g)) []).2

/-- The Kahn algorithm minus the timing and metrics assembly: returns
the order, or the cycle error carrying the never-dequeued nodes. -/
def kahnCore (g : Graph) : Except SortError (List String) :=
  let m := computeIndeg g
  let res := kahnDequeued g
  if res.length ≠ m.length then
    .error (.cycleNodes ((m.map (fun p => p.1)).filter (fun v => ¬ res.contains v)))
  else .ok res

/-- The uniform metrics dict shared by Kahn and BFS on the success path,
in the Python literal's insertion order. -/
def mkBaseMetrics (t : Int) (V E : Int) : Metrics :=
  [("execution_time_ms", t), ("vertices", V), ("edges", E),
   ("theoretical_operations", V + E), ("actual_operations", V + E),
   ("space_complexity", V)]

/-- The zeroed metrics dict returned by Kahn on the empty graph. -/
def kahnEmptyMetrics : Metrics := mkBaseMetrics 0 0 0

/-- `topological_sort_kahn` of `src/algorithms/kahn.py`; `t` is the
measured elapsed time reported in the metrics. -/
def topological_sort_kahn (t : Int) (g : Graph) :
    Except SortError (List String × Metrics) :=
  if g.isEmpty then .ok ([], kahnEmptyMetrics)
  else
    (kahnCore g).map
      (fun res => (res, mkBaseMetrics t g.length (edgeTotal g)))

/-! ## Validator -/

/-- `position = {node: idx for idx, node in enumerate(order)}`: the
index of the last occurrence of `v` in `order`, `none` when absent. -/
def posIdx (order : List String) (v : String) : Option Nat :=
  (order.enum.reverse.find? (fun p => p.2 == v)).map (fun p => p.1)

/-- The violation message of the validator. -/
def invalidMsg (u : String) (pu : Nat) (v : String) (pv : Nat) : String :=
  "Invalid order: " ++ u ++ " (position " ++ toString pu ++
    ") should come before " ++ v ++ " (position " ++ toString pv ++ ")"

/-- Scan one adjacency row of the validator: `some` result short-circuits
(a raised `KeyError` carrying the missing id, or the first violation),
`none` means continue with the remaining rows. -/
def valRow (pos : String → Option Nat) (u : String) :
    List String → Option (Except String (Bool × String))
  | [] => none
  | v :: vs =>
    match pos u with
    | none => some (.error u)
    | some pu =>
      match pos v with
      | none => some (.error v)
      | some pv =>
        if pv ≤ pu then some (.ok (false, invalidMsg u pu v pv))
        else valRow pos u vs

/-- Scan all adjacency rows of the validator. -/
def valGo (pos : String → Option Nat) : Graph → Except String (Bool × String)
  | [] => .ok (true, "Valid topological order")
  | (u, vs) :: rest =>
    match valRow pos u vs with
    | some r => r
    | none => valGo pos rest

/-- `validate_topological_order` of `src/algorithms/kahn.py`.  A raised
`KeyError` (unguarded `position[...]` lookup) is the `Except` error,
carrying the missing id. -/
def validate_topological_order (g : Graph) (order : List String) :
    Except String (Bool × String) :=
  if order.isEmpty then .ok (true, "Empty order is valid for empty graph")
  else valGo (posIdx order) g

/-! ## BFS sorter -/

/-- A levels dict: node ↦ batch index, in insertion order. -/
abbrev LevelsT := List (String × Int)

/-- `levels[v] = k`: update in place, appending when `v` is not a key. -/
def setLevel : LevelsT → String → Int → LevelsT
  | [], v, k => [(v, k)]
  | p :: l, v, k => if p.1 == v then (p.1, k) :: l else p :: setLevel l v k

/-- One BFS batch (`for _ in range(level_size)`): pop `j` nodes from the
queue, appending each to the result at the current level and processing
its successors. -/
def bfsInner (g : Graph) (curLevel : Int) :
    Nat → Indeg → List String → List String → LevelsT →
    Indeg × List String × List String × LevelsT
  | 0, m, q, res, lvls => (m, q, res, lvls)
  | _ + 1, m, [], res, lvls => (m, [], res, lvls)
  | j + 1, m, c :: q, res, lvls =>
    let p := stepSuccs m q (succs g c)
    bfsInner g curLevel j p.1 p.2 (res ++ [c]) (setLevel lvls c curLevel)

/-- The BFS outer loop (`while queue:`), fuelled; one fuel unit per
batch.  Returns the table, queue, result, levels, the final
`current_level` counter, and `max_queue_size`. -/
def bfsOuter (g : Graph) :
    Nat → Indeg → List String → List String → LevelsT → Int → Nat →
    Indeg × List String × List String × LevelsT × Int × Nat
  | 0, m, q, res, lvls, curLevel, maxq => (m, q, res, lvls, curLevel, maxq)
  | _ + 1, m, [], res, lvls, curLevel, maxq => (m, [], res, lvls, curLevel, maxq)
  | fuel + 1, m, c :: q, res, lvls, curLevel, maxq =>
    let maxq2 := max maxq (c :: q).length
    let st := bfsInner g curLevel (c :: q).length m (c :: q) res lvls
    bfsOuter g fuel st.1 st.2.1 st.2.2.1 st.2.2.2 (curLevel + 1) maxq2

/-- The BFS algorithm minus the timing and metrics assembly: the order,
levels, final batch counter and max queue size, or the cycle error
(whose message carries no node data). -/
def bfsCore (g : Graph) :
    Except SortError (List String × LevelsT × Int × Nat) :=
  let m := computeIndeg g
  let q0 := seedQueue m
  let lvls0 : LevelsT := m.map (fun p => (p.1, (0 : Int)))
  let st := bfsOuter g (loopFuel m) m q0 [] lvls0 0 q0.length
  let res := st.2.2.1
  if res.length ≠ m.length then
    .error (.cycleMsg "Graph contains a cycle - topological sort impossible")
  else .ok (res, st.2.2.2.1, st.2.2.2.2.1, st.2.2.2.2.2)

/-- The BFS success-path metrics dict, in the Python literal's order. -/
def mkBfsMetrics (t : Int) (V E maxLevel : Int) (maxQueue : Nat) : Metrics :=
  [("execution_time_ms", t), ("vertices", V), ("edges", E),
   ("theoretical_operations", V + E), ("actual_operations", V + E),
   ("space_complexity", V), ("max_level", maxLevel),
   ("max_queue_size", (maxQueue : Int))]

/-- `topological_sort_bfs` of `src/algorithms/bfs.py`; `t` is the
measured elapsed time.  On the empty graph the source returns
`[], {}, {}`: empty order, empty levels, empty metrics dict. -/
def topological_sort_bfs (t : Int) (g : Graph) :
    Except SortError (List String × LevelsT × Metrics) :=
  if g.isEmpty then .ok ([], [], [])
  else
    (bfsCore g).map
      (fun st =>
        (st.1, st.2.1,
         mkBfsMetrics t g.length (edgeTotal g) (st.2.2.1 - 1) st.2.2.2))

/-! ## DFS sorter

The recursive `dfs` of `src/algorithms/dfs.py` is embedded as a
defunctionalized step machine: a task list holds the pending work, a
`Task.visit n` being a pending call `dfs(n)` and a `Task.finish n` the
tail of such a call after the recursion into the successors (remove
from the recursion stack, append to the result stack).  Opening a node
schedules one visit per successor followed by the node's finish, in
front of the remaining tasks — exactly the call order of the source.
The `edge_count` increments of the successor loop are accounted at
opening time; the counter is only observable on the success path, where
the total agrees with the source's.  One fuel unit is spent per step;
the fuel budget `dfsFuel` provably never runs out. -/

/-- A pending unit of DFS work. -/
inductive Task where
  | visit (n : String)
  | finish (n : String)
deriving DecidableEq, Repr

/-- The mutable state of one `topological_sort_dfs` invocation. -/
structure DfsSt where
  visited : List String
  stack : List String
  out : List String
  ops : Nat
  edges : Nat
deriving Repr

/-- The DFS step machine. -/
def dfsRun (g : Graph) : Nat → List Task → DfsSt → Except SortError DfsSt
  | 0, _, _ => .error .fuelOut
  | _ + 1, [], s => .ok s
  | fuel + 1, .visit n :: ts, s =>
    if n ∈ s.stack then .error (.cycleAt n)
    else if n ∈ s.visited then dfsRun g fuel ts s
    else
      dfsRun g fuel ((succs g n).map Task.visit ++ Task.finish n :: ts)
        { s with
          visited := s.visited ++ [n], stack := s.stack ++ [n],
          ops := s.ops + 1, edges := s.edges + (succs g n).length }
  | fuel + 1, .finish n :: ts, s =>
    dfsRun g fuel ts
      { s with stack := s.stack.erase n, out := s.out ++ [n], ops := s.ops + 1 }

/-- Fuel budget for the DFS machine; at least its step-count measure. -/
def dfsFuel (g : Graph) : Nat :=
  g.length + 2 * (nodesOf g).length +
    ((nodesOf g).map (fun n => (succs g n).length)).sum + 1

/-- Initial DFS state. -/
def dfsInit : DfsSt := ⟨[], [], [], 0, 0⟩

/-- The DFS algorithm minus timing and metrics assembly: the final
state (its reversed `out` is the order), or the cycle error. -/
def dfsCore (g : Graph) : Except SortError DfsSt :=
  dfsRun g (dfsFuel g) (g.map (fun p => Task.visit p.1)) dfsInit

/-- The DFS empty-graph metrics dict. -/
def dfsEmptyMetrics : Metrics :=
  [("execution_time_ms", 0), ("vertices", 0), ("edges", 0),
   ("theoretical_operations", 0), ("actual_operations", 0),
   ("space_complexity", 0), ("recursion_depth", 0)]

/-- `topological_sort_dfs` of `src/algorithms/dfs.py`; `t` is the
measured elapsed time. -/
def topological_sort_dfs (t : Int) (g : Graph) :
    Except SortError (List String × Metrics) :=
  if g.isEmpty then .ok ([], dfsEmptyMetrics)
  else
    (dfsCore g).map
      (fun s =>
        (s.out.reverse,
         [("execution_time_ms", t), ("vertices", (g.length : Int)),
          ("edges", (s.edges : Int)),
          ("theoretical_operations", (g.length + s.edges : Int)),
          ("actual_operations", (s.ops : Int)),
          ("space_complexity", (g.length : Int)),
          ("recursion_depth", (s.stack.length : Int))]))

/-! ## Derived notions used by the statements -/

/-- The edge list of the graph in the validator's scan order. -/
def edgeList (g : Graph) : List (String × String) :=
  (g.map (fun p => p.2.map (fun v => (p.1, v)))).flatten

/-- Every id the validator may look up: keys and successors, in scan
order, with multiplicity. -/
def refIds (g : Graph) : List String :=
  (g.map (fun p => p.1 :: p.2)).flatten

/-- Some edge of the graph places its source at or after its target in
the order (positions are the validator's last-occurrence indices). -/
def Violation (g : Graph) (order : List String) : Prop :=
  ∃ u v pu pv, (u, v) ∈ edgeList g ∧ posIdx order u = some pu ∧
    posIdx order v = some pv ∧ pv ≤ pu

/-- Drop the timing field of a metrics dict. -/
def stripTime (m : Metrics) : Metrics :=
  m.filter (fun p => p.1 != "execution_time_ms")

/-- The field names of the BFS success-path metrics dict, in order. -/
def bfsFieldNames : List String :=
  ["execution_time_ms", "vertices", "edges", "theoretical_operations",
   "actual_operations", "space_complexity", "max_level", "max_queue_size"]

/-- The 3-cycle graph `A→B→C→A` of the spec's cycle-rejection property. -/
def cycleGraph3 : Graph := [("A", ["B"]), ("B", ["C"]), ("C", ["A"])]

/-- The self-loop graph `A→A`. -/
def selfLoopGraph : Graph := [("A", ["A"])]

/-- The diamond graph `A→[B,C], B→[D], C→[D], D→[]` of the spec's
level-correctness property. -/
def diamondGraph : Graph :=
  [("A", ["B", "C"]), ("B", ["D"]), ("C", ["D"]), ("D", [])]

/-- One validator edge check, on the flattened edge list: `some` result
short-circuits the scan, `none` continues. -/
def valEdge (pos : String → Option Nat) (e : String × String) :
    Option (Except String (Bool × String)) :=
  match pos e.1 with
  | none => some (.error e.1)
  | some pu =>
    match pos e.2 with
    | none => some (.error e.2)
    | some pv =>
      if pv ≤ pu then some (.ok (false, invalidMsg e.1 pu e.2 pv)) else none

/-- The validator scan over the flattened edge list; equal to `valGo`
over the nested adjacency rows. -/
def valScan (pos : String → Option Nat) :
    List (String × String) → Except String (Bool × String)
  | [] => .ok (true, "Valid topological order")
  | e :: es =>
    match valEdge pos e with
    | some r => r
    | none => valScan pos es

/-- The keys of an in-degree table, in order. -/
def keysI (m : Indeg) : List String := m.map (fun p => p.1)

/-- Number of table entries holding a positive count (part of the
termination measure of the queue loops). -/
def posCount (m : Indeg) : Nat := m.countP (fun p => decide (0 < p.2))

/-- Termination measure of the queue loops: queue length plus twice the
number of positive table entries. -/
def kMeasure (m : Indeg) (q : List String) : Nat := q.length + 2 * posCount m

/-- Well-formedness of the DFS machine's pending tasks against the
reversed recursion stack (top first).  Reading top-down, the tasks are:
the unvisited suffix of the top node's successor list, its finish
marker, then the same shape for each node below, ending in the
unvisited suffix of the top-level key loop.  The consumed prefix of
each layer is already finished (`∈ out`), except possibly the one node
currently open directly above that layer (`ob`). -/
inductive TWFb (g : Graph) (out : List String) :
    List Task → List String → Option String → Prop where
  | base (j : Nat) (ob : Option String)
      (hcons : ∀ w ∈ (keysOf g).take j, w ∈ out ∨ ob = some w) :
      TWFb g out (((keysOf g).drop j).map Task.visit) [] ob
  | step (v : String) (j : Nat) (ts : List Task) (rst : List String)
      (ob : Option String)
      (hcons : ∀ w ∈ (succs g v).take j, w ∈ out ∨ ob = some w)
      (htail : TWFb g out ts rst (some v)) :
      TWFb g out ((((succs g v).drop j).map Task.visit) ++
        Task.finish v :: ts) (v :: rst) ob

/-- State invariant of the DFS machine: the stack and the finished
output are duplicate-free and disjoint, together they are the visited
set; the output is closed under successors with successors finishing
first; the stack is an edge path; and everything visited is a known
node. -/
def SInv (g : Graph) (s : DfsSt) : Prop :=
  s.stack.Nodup ∧ s.out.Nodup ∧
  (∀ v, v ∈ s.visited ↔ (v ∈ s.out ∨ v ∈ s.stack)) ∧
  (∀ v ∈ s.out, v ∉ s.stack) ∧
  (∀ v ∈ s.out, ∀ w ∈ succs g v,
    w ∈ s.out ∧ s.out.indexOf w < s.out.indexOf v) ∧
  List.Chain' (Edge g) s.stack ∧
  (∀ v ∈ s.visited, v ∈ nodesOf g)

/-- Combined invariant of the DFS machine. -/
def DInv (g : Graph) (tasks : List Task) (s : DfsSt) : Prop :=
  SInv g s ∧ TWFb g s.out tasks s.stack.reverse none

/-- Termination measure of the DFS machine: pending tasks plus a
budget of `successors + 2` for every not-yet-visited node. -/
def dMeasure (g : Graph) (tasks : List Task) (s : DfsSt) : Nat :=
  tasks.length +
    (((nodesOf g).filter (fun n => ! s.visited.contains n)).map
      (fun n => (succs g n).length + 2)).sum

/-- Dict read of a levels table (first match). -/
def levelOf : LevelsT → String → Option Int
  | [], _ => none
  | p :: l, v => if p.1 == v then some p.2 else levelOf l v

/-- The successive batch contents of the BFS level loop: the queue
content at the start of each outer iteration.  Nodes whose in-degree
reaches zero during batch `k` enter the queue then and so appear in
batch `k + 1`. -/
def bfsBatches (g : Graph) : Nat → Indeg → List String → List (List String)
  | 0, _, _ => []
  | _ + 1, _, [] => []
  | fuel + 1, m, c :: q =>
    let st := bfsInner g 0 (c :: q).length m (c :: q) [] []
    (c :: q) :: bfsBatches g fuel st.1 st.2.1

/-- Invariant of the Kahn/BFS queue loop over the initial table `m0`:
the table keys never change; each count records the initial count minus
the edges already consumed by dequeued sources; a node has been dequeued
or sits in the queue exactly when its count has reached zero; dequeued
and queued nodes are distinct table keys; and the dequeued prefix is
topologically sorted (every predecessor of a dequeued node was dequeued
earlier). -/
def KInv (g : Graph) (m0 m : Indeg) (q res : List String) : Prop :=
  keysI m = keysI m0 ∧
  (∀ w, lookup0 m w =
    lookup0 m0 w - (((res.map (succs g)).flatten).count w : Int)) ∧
  (∀ v, (v ∈ res ∨ v ∈ q) ↔ (v ∈ keysI m0 ∧ lookup0 m v = 0)) ∧
  (res ++ q).Nodup ∧
  (∀ v ∈ res ++ q, v ∈ keysI m0) ∧
  (∀ u v, Edge g u v → v ∈ res →
    u ∈ res ∧ res.indexOf u < res.indexOf v)

/-! ## Theorems -/

/-- C4: on the 3-cycle `A→B→C→A` all three sorters raise a
cycle-detected error instead of returning an order; on the self-loop
`A→A` the DFS sorter raises a cycle-detected error citing node `A`.
The error payloads are exactly those of the source's raise sites. -/
theorem claim_C4 : ∀ t : Int,
    topological_sort_kahn t cycleGraph3 =
      .error (.cycleNodes ["A", "B", "C"]) ∧
    topological_sort_dfs t cycleGraph3 = .error (.cycleAt "A") ∧
    topological_sort_bfs t cycleGraph3 =
      .error (.cycleMsg "Graph contains a cycle - topological sort impossible") ∧
    topological_sort_dfs t selfLoopGraph = .error (.cycleAt "A") :=
  fun _ => ⟨rfl, rfl, rfl, rfl⟩

/-- C2 (counterexample): on `{A: [B]}` Kahn succeeds with an order of
length 2, while the graph has a single key; the claimed equality
`len(order) = number of keys` fails when a successor is not a key. -/
theorem claim_C2_counterexample :
    (topological_sort_kahn 0 [("A", ["B"])]).map (fun p => p.1.length) =
      .ok 2 ∧
    (keysOf [("A", ["B"])]).length = 1 :=
  ⟨rfl, rfl⟩

/-- C3 (counterexample): on the 2-cycle `{A:[B], B:[A]}` the BFS sorter
raises the fixed message `ValueError` whose payload carries no node
set, refuting the claim that the BFS error carries the set of
never-dequeued nodes. -/
theorem claim_C3_counterexample :
    topological_sort_bfs 0 [("A", ["B"]), ("B", ["A"])] =
      .error (.cycleMsg "Graph contains a cycle - topological sort impossible") ∧
    (.cycleMsg "Graph contains a cycle - topological sort impossible"
        : SortError) ≠ .cycleNodes ["A", "B"] :=
  ⟨rfl, by simp⟩

/-- C7 (counterexample): on the empty graph the BFS sorter returns an
empty order, empty levels and an *empty* metrics dict, which contains
none of the claimed core fields. -/
theorem claim_C7_counterexample :
    topological_sort_bfs 0 [] = .ok ([], [], []) ∧
    (([] : Metrics).map (fun p => p.1) = ([] : List String)) ∧
    (([] : Metrics).lookup "execution_time_ms" = none) :=
  ⟨rfl, rfl, rfl⟩

/-- Helper: dropping the timing field of the Kahn/BFS base metrics
leaves a record independent of the measured time. -/
theorem stripTime_mkBaseMetrics (t V E : Int) :
    stripTime (mkBaseMetrics t V E) =
      [("vertices", V), ("edges", E), ("theoretical_operations", V + E),
       ("actual_operations", V + E), ("space_complexity", V)] := rfl

/-- Helper: dropping the timing field of the BFS metrics leaves a
record independent of the measured time. -/
theorem stripTime_mkBfsMetrics (t V E maxLevel : Int) (maxQueue : Nat) :
    stripTime (mkBfsMetrics t V E maxLevel maxQueue) =
      [("vertices", V), ("edges", E), ("theoretical_operations", V + E),
       ("actual_operations", V + E), ("space_complexity", V),
       ("max_level", maxLevel), ("max_queue_size", (maxQueue : Int))] := rfl

/-- C7 (amended): on every *non-empty* graph on which the BFS sorter
returns, the metrics record carries exactly the uniform core fields
plus `max_level` and `max_queue_size`, in the source's insertion
order; on the empty graph the metrics record is the empty dict. -/
theorem claim_C7_amended : ∀ (t : Int) (g : Graph) res lvls m,
    g ≠ [] → topological_sort_bfs t g = .ok (res, lvls, m) →
    m.map (fun p => p.1) = bfsFieldNames := by
  intro t g res lvls m hne h
  cases g with
  | nil => exact absurd rfl hne
  | cons a l =>
    rw [topological_sort_bfs] at h
    simp only [List.isEmpty_cons, if_false, Bool.false_eq_true] at h
    cases hb : bfsCore (a :: l) with
    | error e => rw [hb] at h; exact absurd h (by simp [Except.map])
    | ok st =>
      rw [hb] at h
      obtain ⟨r, l2, c, q⟩ := st
      simp only [Except.map, Except.ok.injEq, Prod.mk.injEq] at h
      rw [← h.2.2]
      rfl

/-- Witness for the amended C7 at a concrete input: the metrics of the
diamond graph carry exactly the claimed fields. -/
theorem claim_C7_witness :
    (mkBfsMetrics 0 4 4 2 2).map (fun p => p.1) = bfsFieldNames :=
  claim_C7_amended 0 diamondGraph ["A", "B", "C", "D"]
    [("A", 0), ("B", 1), ("C", 1), ("D", 2)] (mkBfsMetrics 0 4 4 2 2)
    (by simp [diamondGraph]) rfl

/-- C8: each sorter is deterministic: its entire output — order, levels
(BFS) and metrics — is a pure function of the graph, except for the
measured `execution_time_ms` field, here an explicit parameter.  Runs
at two different measured times agree on everything else. -/
theorem claim_C8 : ∀ (t₁ t₂ : Int) (g : Graph),
    (topological_sort_kahn t₁ g).map (fun p => (p.1, stripTime p.2)) =
      (topological_sort_kahn t₂ g).map (fun p => (p.1, stripTime p.2)) ∧
    (topological_sort_dfs t₁ g).map (fun p => (p.1, stripTime p.2)) =
      (topological_sort_dfs t₂ g).map (fun p => (p.1, stripTime p.2)) ∧
    (topological_sort_bfs t₁ g).map (fun p => (p.1, p.2.1, stripTime p.2.2)) =
      (topological_sort_bfs t₂ g).map (fun p => (p.1, p.2.1, stripTime p.2.2)) := by
  intro t₁ t₂ g
  refine ⟨?_, ?_, ?_⟩
  · cases g with
    | nil => rfl
    | cons a l =>
      rw [topological_sort_kahn, topological_sort_kahn]
      cases hk : kahnCore (a :: l) with
      | error e => rfl
      | ok res => rfl
  · cases g with
    | nil => rfl
    | cons a l =>
      rw [topological_sort_dfs, topological_sort_dfs]
      cases hk : dfsCore (a :: l) with
      | error e => rfl
      | ok s => rfl
  · cases g with
    | nil => rfl
    | cons a l =>
      rw [topological_sort_bfs, topological_sort_bfs]
      cases hk : bfsCore (a :: l) with
      | error e => rfl
      | ok st => rfl

/-! ### Validator lemmas -/

/-- Helper: a row scan of the validator equals the flat scan of that
row's edges prepended to any continuation. -/
theorem valRow_scan (pos : String → Option Nat) (u : String) :
    ∀ (vs : List String) (es : List (String × String)),
      (match valRow pos u vs with
       | some r => r
       | none => valScan pos es) =
        valScan pos (vs.map (fun v => (u, v)) ++ es) := by
  intro vs
  induction vs with
  | nil => intro es; rfl
  | cons v vs ih =>
    intro es
    rw [valRow, List.map_cons, List.cons_append, valScan]
    show _ = (match valEdge pos (u, v) with
      | some r => r
      | none => valScan pos (List.map (fun v => (u, v)) vs ++ es))
    rw [valEdge]
    cases hpu : pos u with
    | none => rfl
    | some pu =>
      cases hpv : pos v with
      | none => rfl
      | some pv =>
        by_cases hle : pv ≤ pu
        · simp only [if_pos hle]
        · simp only [if_neg hle]
          exact ih es

/-- Helper: the nested validator scan equals the flat edge-list scan. -/
theorem valGo_eq_valScan (pos : String → Option Nat) :
    ∀ g : Graph, valGo pos g = valScan pos (edgeList g) := by
  intro g
  induction g with
  | nil => rfl
  | cons p rest ih =>
    obtain ⟨u, vs⟩ := p
    have h := valRow_scan pos u vs (edgeList rest)
    have hedge : edgeList ((u, vs) :: rest) =
        vs.map (fun v => (u, v)) ++ edgeList rest := rfl
    rw [valGo, hedge, ← h]
    cases valRow pos u vs with
    | some r => rfl
    | none => exact ih

/-- Helper: on a non-empty order the validator is the flat edge scan. -/
theorem validate_eq_valScan (g : Graph) (order : List String)
    (h : order ≠ []) :
    validate_topological_order g order =
      valScan (posIdx order) (edgeList g) := by
  rw [validate_topological_order, if_neg (by simpa using h)]
  exact valGo_eq_valScan (posIdx order) g

/-- Helper: the position table has an entry for every member of the
order. -/
theorem posIdx_isSome_of_mem {order : List String} {v : String}
    (h : v ∈ order) : (posIdx order v).isSome := by
  obtain ⟨i, hi, hgi⟩ := List.mem_iff_getElem.mp h
  have hfs : (order.enum.reverse.find? (fun p => p.2 == v)).isSome := by
    rw [List.find?_isSome]
    refine ⟨(i, v), ?_, by simp⟩
    rw [List.mem_reverse, List.mem_enum_iff_getElem?]
    simp [List.getElem?_eq_getElem hi, hgi]
  rw [posIdx]
  cases hx : order.enum.reverse.find? (fun p => p.2 == v) with
  | none => rw [hx] at hfs; simp at hfs
  | some x => simp

/-- Helper: ids absent from the order have no position. -/
theorem posIdx_eq_none_of_not_mem {order : List String} {v : String}
    (h : v ∉ order) : posIdx order v = none := by
  have hnone : order.enum.reverse.find? (fun p => p.2 == v) = none := by
    rw [List.find?_eq_none]
    intro x hx hbeq
    apply h
    have hx2 : x ∈ order.enum := List.mem_reverse.mp hx
    have hg := List.mem_enum_iff_getElem?.mp hx2
    have hveq : x.2 = v := by simpa using hbeq
    rw [hveq] at hg
    exact List.getElem?_mem hg
  rw [posIdx, hnone]
  rfl

/-- Helper: in a duplicate-free order the position of the `i`-th entry
is `i`. -/
theorem posIdx_of_nodup {order : List String} (hnd : order.Nodup)
    {i : Nat} (hi : i < order.length) :
    posIdx order order[i] = some i := by
  have hmem : order[i] ∈ order := List.getElem_mem hi
  have hsome := posIdx_isSome_of_mem hmem
  rw [posIdx] at hsome ⊢
  cases hx : order.enum.reverse.find? (fun p => p.2 == order[i]) with
  | none => rw [hx] at hsome; simp at hsome
  | some x =>
    have hpred := List.find?_some hx
    have hxmem : x ∈ order.enum :=
      List.mem_reverse.mp (List.mem_of_find?_eq_some hx)
    have hget := List.mem_enum_iff_getElem?.mp hxmem
    have hx2 : x.2 = order[i] := by simpa using hpred
    rw [hx2] at hget
    obtain ⟨hlt, heq⟩ := by
      rw [List.getElem?_eq_some] at hget; exact hget
    have : x.1 = i :=
      (@List.Nodup.getElem_inj_iff _ _ hnd x.1 hlt i hi).mp heq
    simp [hx, this]

/-- Helper: when every endpoint of the edge list has a position, the
scan never raises. -/
theorem valScan_isOk (pos : String → Option Nat) :
    ∀ es : List (String × String),
      (∀ e ∈ es, (pos e.1).isSome ∧ (pos e.2).isSome) →
      ∃ r, valScan pos es = .ok r := by
  intro es
  induction es with
  | nil => intro _; exact ⟨(true, "Valid topological order"), rfl⟩
  | cons e es ih =>
    intro h
    obtain ⟨h1, h2⟩ := h e (List.mem_cons_self e es)
    obtain ⟨pu, hpu⟩ := Option.isSome_iff_exists.mp h1
    obtain ⟨pv, hpv⟩ := Option.isSome_iff_exists.mp h2
    have hstep : valScan pos (e :: es) =
        (match valEdge pos e with
         | some r => r
         | none => valScan pos es) := rfl
    by_cases hle : pv ≤ pu
    · refine ⟨(false, invalidMsg e.1 pu e.2 pv), ?_⟩
      rw [hstep]
      simp [valEdge, hpu, hpv, hle]
    · obtain ⟨r, hr⟩ := ih (fun x hx => h x (List.mem_cons_of_mem e hx))
      refine ⟨r, ?_⟩
      rw [hstep]
      simp [valEdge, hpu, hpv, hle, hr]

/-- Helper: full characterization of the scan outcome when every
endpoint has a position: valid exactly when no edge violates, and a
first-violation `(false, message)` exactly when some edge violates. -/
theorem valScan_spec (pos : String → Option Nat) :
    ∀ es : List (String × String),
      (∀ e ∈ es, (pos e.1).isSome ∧ (pos e.2).isSome) →
      (valScan pos es = .ok (true, "Valid topological order") ↔
        ¬ ∃ e ∈ es, ∃ pu pv, pos e.1 = some pu ∧ pos e.2 = some pv ∧ pv ≤ pu) ∧
      ((∃ u pu v pv, (u, v) ∈ es ∧ pos u = some pu ∧ pos v = some pv ∧
          pv ≤ pu ∧ valScan pos es = .ok (false, invalidMsg u pu v pv)) ↔
        ∃ e ∈ es, ∃ pu pv, pos e.1 = some pu ∧ pos e.2 = some pv ∧ pv ≤ pu) := by
  intro es
  induction es with
  | nil =>
    intro _
    constructor
    · simp [valScan]
    · constructor
      · rintro ⟨u, pu, v, pv, hmem, -⟩; exact absurd hmem (List.not_mem_nil _)
      · rintro ⟨e, hmem, -⟩; exact absurd hmem (List.not_mem_nil _)
  | cons e es ih =>
    intro h
    obtain ⟨h1, h2⟩ := h e (List.mem_cons_self e es)
    obtain ⟨pu, hpu⟩ := Option.isSome_iff_exists.mp h1
    obtain ⟨pv, hpv⟩ := Option.isSome_iff_exists.mp h2
    have hscan : valScan pos (e :: es) =
        (match valEdge pos e with
         | some r => r
         | none => valScan pos es) := rfl
    by_cases hle : pv ≤ pu
    · have hres : valScan pos (e :: es) = .ok (false, invalidMsg e.1 pu e.2 pv) := by
        rw [hscan]; simp [valEdge, hpu, hpv, hle]
      have hvio : ∃ x ∈ e :: es, ∃ pu pv, pos x.1 = some pu ∧
          pos x.2 = some pv ∧ pv ≤ pu :=
        ⟨e, List.mem_cons_self e es, pu, pv, hpu, hpv, hle⟩
      constructor
      · constructor
        · intro hv; rw [hres] at hv; exact absurd (congrArg id hv) (by simp)
        · intro hnv; exact absurd hvio hnv
      · constructor
        · intro _; exact hvio
        · intro _
          exact ⟨e.1, pu, e.2, pv, List.mem_cons_self e es, hpu, hpv, hle, hres⟩
    · have hres : valScan pos (e :: es) = valScan pos es := by
        rw [hscan]; simp [valEdge, hpu, hpv, hle]
      have htail := ih (fun x hx => h x (List.mem_cons_of_mem e hx))
      have hvio : (∃ x ∈ e :: es, ∃ pu pv, pos x.1 = some pu ∧
          pos x.2 = some pv ∧ pv ≤ pu) ↔
          ∃ x ∈ es, ∃ pu pv, pos x.1 = some pu ∧ pos x.2 = some pv ∧ pv ≤ pu := by
        constructor
        · rintro ⟨x, hx, pu2, pv2, hpu2, hpv2, hle2⟩
          rcases List.mem_cons.mp hx with hxe | hxes
          · subst hxe
            rw [hpu] at hpu2; rw [hpv] at hpv2
            cases hpu2; cases hpv2
            exact absurd hle2 hle
          · exact ⟨x, hxes, pu2, pv2, hpu2, hpv2, hle2⟩
        · rintro ⟨x, hx, pu2, pv2, hpu2, hpv2, hle2⟩
          exact ⟨x, List.mem_cons_of_mem e hx, pu2, pv2, hpu2, hpv2, hle2⟩
      constructor
      · rw [hres, hvio]; exact htail.1
      · rw [hvio, ← htail.2]
        constructor
        · rintro ⟨u, pu2, v, pv2, hmem, hpu2, hpv2, hle2, hval⟩
          rcases List.mem_cons.mp hmem with hxe | hxes
          · have hu : e.1 = u := congrArg Prod.fst hxe.symm
            have hv : e.2 = v := congrArg Prod.snd hxe.symm
            rw [← hu] at hpu2; rw [← hv] at hpv2
            rw [hpu] at hpu2; rw [hpv] at hpv2
            cases hpu2; cases hpv2
            exact absurd hle2 hle
          · exact ⟨u, pu2, v, pv2, hxes, hpu2, hpv2, hle2, by rw [← hres]; exact hval⟩
        · rintro ⟨u, pu2, v, pv2, hmem, hpu2, hpv2, hle2, hval⟩
          exact ⟨u, pu2, v, pv2, List.mem_cons_of_mem e hmem, hpu2, hpv2, hle2,
            by rw [hres]; exact hval⟩

/-- Helper: both endpoints of every edge are referenced ids. -/
theorem mem_refIds_of_mem_edgeList {g : Graph} {u v : String}
    (h : (u, v) ∈ edgeList g) : u ∈ refIds g ∧ v ∈ refIds g := by
  rw [edgeList, List.mem_flatten] at h
  obtain ⟨row, hrow, hmem⟩ := h
  rw [List.mem_map] at hrow
  obtain ⟨p, hp, hpe⟩ := hrow
  rw [← hpe] at hmem
  rw [List.mem_map] at hmem
  obtain ⟨w, hw, hwe⟩ := hmem
  have hu : u = p.1 := (congrArg Prod.fst hwe).symm
  have hv : v = w := (congrArg Prod.snd hwe).symm
  constructor
  · rw [refIds, List.mem_flatten]
    exact ⟨p.1 :: p.2, List.mem_map.mpr ⟨p, hp, rfl⟩, by rw [hu]; exact List.mem_cons_self _ _⟩
  · rw [refIds, List.mem_flatten]
    refine ⟨p.1 :: p.2, List.mem_map.mpr ⟨p, hp, rfl⟩, ?_⟩
    rw [hv]
    exact List.mem_cons_of_mem _ hw

/-- C5: given a non-empty order containing every referenced node, the
validator returns `(false, message citing both nodes and positions)`
exactly when some edge `node→neighbor` has
`position[node] >= position[neighbor]`, and returns
`(true, "Valid topological order")` otherwise; the embedding is a pure
function, so it has no side effects. -/
theorem claim_C5 (g : Graph) (order : List String) (h1 : order ≠ [])
    (h2 : ∀ x ∈ refIds g, x ∈ order) :
    (validate_topological_order g order =
        .ok (true, "Valid topological order") ↔ ¬ Violation g order) ∧
    ((∃ u pu v pv, (u, v) ∈ edgeList g ∧ posIdx order u = some pu ∧
        posIdx order v = some pv ∧ pv ≤ pu ∧
        validate_topological_order g order =
          .ok (false, invalidMsg u pu v pv)) ↔ Violation g order) := by
  have hall : ∀ e ∈ edgeList g,
      ((posIdx order) e.1).isSome ∧ ((posIdx order) e.2).isSome := by
    intro e he
    obtain ⟨hu, hv⟩ :=
      mem_refIds_of_mem_edgeList (show (e.1, e.2) ∈ edgeList g from he)
    exact ⟨posIdx_isSome_of_mem (h2 _ hu), posIdx_isSome_of_mem (h2 _ hv)⟩
  have hspec := valScan_spec (posIdx order) (edgeList g) hall
  have heq := validate_eq_valScan g order h1
  have hvioiff : (∃ e ∈ edgeList g, ∃ pu pv, posIdx order e.1 = some pu ∧
      posIdx order e.2 = some pv ∧ pv ≤ pu) ↔ Violation g order := by
    constructor
    · rintro ⟨e, he, pu, pv, hpu, hpv, hle⟩
      exact ⟨e.1, e.2, pu, pv, he, hpu, hpv, hle⟩
    · rintro ⟨u, v, pu, pv, he, hpu, hpv, hle⟩
      exact ⟨(u, v), he, pu, pv, hpu, hpv, hle⟩
  constructor
  · rw [heq, hspec.1, hvioiff]
  · rw [← hvioiff, ← hspec.2]
    constructor
    · rintro ⟨u, pu, v, pv, hm, hpu, hpv, hle, hval⟩
      exact ⟨u, pu, v, pv, hm, hpu, hpv, hle, by rw [← heq]; exact hval⟩
    · rintro ⟨u, pu, v, pv, hm, hpu, hpv, hle, hval⟩
      exact ⟨u, pu, v, pv, hm, hpu, hpv, hle, by rw [heq]; exact hval⟩

/-- Witness for C5 at concrete inputs: `graph={A:[B]}` with
`order=[A,B]` is accepted, and with `order=[B,A]` the violation
characterization produces the `(false, message)` outcome. -/
theorem claim_C5_witness :
    validate_topological_order [("A", ["B"])] ["A", "B"] =
      .ok (true, "Valid topological order") ∧
    (∃ u pu v pv, (u, v) ∈ edgeList [("A", ["B"])] ∧
      posIdx ["B", "A"] u = some pu ∧ posIdx ["B", "A"] v = some pv ∧
      pv ≤ pu ∧
      validate_topological_order [("A", ["B"])] ["B", "A"] =
        .ok (false, invalidMsg u pu v pv)) := by
  constructor
  · refine (claim_C5 [("A", ["B"])] ["A", "B"] (by simp)
      (by intro x hx; simp [refIds] at hx; rcases hx with h | h <;> simp [h])).1.mpr ?_
    rintro ⟨u, v, pu, pv, hmem, hpu, hpv, hle⟩
    have he : u = "A" ∧ v = "B" := by simpa [edgeList] using hmem
    rw [he.1] at hpu; rw [he.2] at hpv
    rw [show posIdx ["A", "B"] "A" = some 0 from rfl] at hpu
    rw [show posIdx ["A", "B"] "B" = some 1 from rfl] at hpv
    cases hpu; cases hpv
    exact absurd hle (by decide)
  · refine (claim_C5 [("A", ["B"])] ["B", "A"] (by simp)
      (by intro x hx; simp [refIds] at hx; rcases hx with h | h <;> simp [h])).2.mpr ?_
    exact ⟨"A", "B", 1, 0, by simp [edgeList], rfl, rfl, by decide⟩

/-- C9: first, if the order is non-empty and the scan reaches an edge
whose neighbor is absent from the order (every earlier edge having both
positions and no violation), the validator raises a `KeyError` carrying
that neighbor instead of returning false; second, when every referenced
node occurs in the order the validator never raises. -/
theorem claim_C9 :
    (∀ (g : Graph) (order : List String) (pre post : List (String × String))
        (u v : String),
      order ≠ [] →
      edgeList g = pre ++ (u, v) :: post →
      (∀ e ∈ pre, ∃ pu pv, posIdx order e.1 = some pu ∧
        posIdx order e.2 = some pv ∧ pu < pv) →
      u ∈ order → v ∉ order →
      validate_topological_order g order = .error v) ∧
    (∀ (g : Graph) (order : List String),
      (∀ x ∈ refIds g, x ∈ order) →
      ∃ r, validate_topological_order g order = .ok r) := by
  constructor
  · intro g order pre post u v hne hsplit hpre hu hv
    rw [validate_eq_valScan g order hne, hsplit]
    clear hsplit
    induction pre with
    | nil =>
      obtain ⟨pu, hpu⟩ := Option.isSome_iff_exists.mp (posIdx_isSome_of_mem hu)
      have hpv := posIdx_eq_none_of_not_mem hv
      show (match valEdge (posIdx order) (u, v) with
        | some r => r
        | none => valScan (posIdx order) post) = Except.error v
      simp [valEdge, hpu, hpv]
    | cons e pre ih =>
      obtain ⟨pu, pv2, hpu, hpv2, hlt⟩ := hpre e (List.mem_cons_self e pre)
      have hstep : valScan (posIdx order) ((e :: pre) ++ (u, v) :: post) =
          valScan (posIdx order) (pre ++ (u, v) :: post) := by
        show (match valEdge (posIdx order) e with
          | some r => r
          | none => valScan (posIdx order) (pre ++ (u, v) :: post)) = _
        simp [valEdge, hpu, hpv2, show ¬ pv2 ≤ pu by omega]
      rw [hstep]
      exact ih (fun x hx => hpre x (List.mem_cons_of_mem e hx))
  · intro g order h2
    cases horder : order with
    | nil =>
      exact ⟨(true, "Empty order is valid for empty graph"), rfl⟩
    | cons a l =>
      rw [← horder, validate_eq_valScan g order (by rw [horder]; simp)]
      refine valScan_isOk (posIdx order) (edgeList g) ?_
      intro e he
      obtain ⟨hu, hv⟩ :=
        mem_refIds_of_mem_edgeList (show (e.1, e.2) ∈ edgeList g from he)
      exact ⟨posIdx_isSome_of_mem (h2 _ hu), posIdx_isSome_of_mem (h2 _ hv)⟩

/-- Witness for C9 at concrete inputs: on `graph={A:[X]}`, `order=[A]`
the validator raises `KeyError("X")`; on `graph={A:[B]}`,
`order=[A,B]` it returns without raising. -/
theorem claim_C9_witness :
    validate_topological_order [("A", ["X"])] ["A"] = .error "X" ∧
    ∃ r, validate_topological_order [("A", ["B"])] ["A", "B"] = .ok r := by
  constructor
  · refine claim_C9.1 [("A", ["X"])] ["A"] [] [] "A" "X" (by simp) rfl ?_ ?_ ?_
    · intro e he; exact absurd he (List.not_mem_nil e)
    · simp
    · simp
  · exact claim_C9.2 [("A", ["B"])] ["A", "B"]
      (by intro x hx; simp [refIds] at hx; rcases hx with h | h <;> simp [h])

/-! ### In-degree table toolkit -/

/-- Helper: `decKey` preserves the key list. -/
theorem keysI_decKey (m : Indeg) (v : String) :
    keysI (decKey m v) = keysI m := by
  induction m with
  | nil => rfl
  | cons p m ih =>
    rw [decKey]
    by_cases h : p.1 = v
    · simp [keysI, h]
    · have hb : (p.1 == v) = false := by simpa using h
      rw [if_neg (by simp [hb])]
      simp only [keysI, List.map_cons] at ih ⊢
      rw [ih]

/-- Helper: `decKey` preserves the table length. -/
theorem length_decKey (m : Indeg) (v : String) :
    (decKey m v).length = m.length := by
  induction m with
  | nil => rfl
  | cons p m ih =>
    rw [decKey]
    by_cases h : p.1 = v
    · simp [h]
    · rw [if_neg (by simpa using h)]
      simp [ih]

/-- Helper: an absent key reads as zero. -/
theorem lookup0_eq_zero_of_not_mem {m : Indeg} {v : String}
    (h : v ∉ keysI m) : lookup0 m v = 0 := by
  induction m with
  | nil => rfl
  | cons p m ih =>
    rw [lookup0]
    have hne : p.1 ≠ v := by
      intro he; exact h (by simp [keysI, he])
    rw [if_neg (by simpa using hne)]
    exact ih (fun hm => h (by simp [keysI] at hm ⊢; exact Or.inr hm))

/-- Helper: reading the updated key after `decKey`. -/
theorem lookup0_decKey_self (m : Indeg) (v : String) :
    v ∈ keysI m → lookup0 (decKey m v) v = lookup0 m v - 1 := by
  induction m with
  | nil => intro h; exact absurd h (List.not_mem_nil v)
  | cons p m ih =>
    intro h
    rw [decKey, lookup0]
    by_cases hb : p.1 = v
    · rw [if_pos (by simpa using hb), if_pos (by simpa using hb)]
      rw [lookup0, if_pos (by simpa using hb)]
    · have hbf : (p.1 == v) = false := by simpa using hb
      rw [if_neg (by simp [hbf]), if_neg (by simp [hbf])]
      rw [lookup0, if_neg (by simp [hbf])]
      refine ih ?_
      rcases List.mem_cons.mp h with h1 | h1
      · exact absurd h1.symm hb
      · exact h1

/-- Helper: reading an untouched key after `decKey`. -/
theorem lookup0_decKey_other (m : Indeg) (v w : String) (h : w ≠ v) :
    lookup0 (decKey m v) w = lookup0 m w := by
  induction m with
  | nil => rfl
  | cons p m ih =>
    rw [decKey]
    by_cases hb : p.1 = v
    · rw [if_pos (by simpa using hb)]
      have hw : (p.1 == w) = false := by
        simp; intro he; exact absurd (he.symm.trans hb) h
      rw [lookup0, lookup0, if_neg (by simp [hw]), if_neg (by simp [hw])]
    · rw [if_neg (by simpa using hb)]
      rw [lookup0, lookup0]
      by_cases hw : p.1 = w
      · rw [if_pos (by simpa using hw), if_pos (by simpa using hw)]
      · rw [if_neg (by simpa using hw), if_neg (by simpa using hw)]
        exact ih

/-- Helper: `decKey` never increases the positive-entry count. -/
theorem posCount_decKey_le (m : Indeg) (v : String) :
    posCount (decKey m v) ≤ posCount m := by
  induction m with
  | nil => exact Nat.le_refl 0
  | cons p m ih =>
    rw [decKey]
    by_cases hb : p.1 = v
    · rw [if_pos (by simpa using hb)]
      rw [posCount, posCount, List.countP_cons, List.countP_cons]
      have hsnd : (((p.1, p.2 - 1) : String × Int)).2 = p.2 - 1 := rfl
      rw [hsnd]
      have : (if decide (0 < p.2 - 1) = true then 1 else 0) ≤
          (if decide (0 < p.2) = true then 1 else 0) := by
        by_cases h1 : (0 : Int) < p.2 - 1
        · rw [if_pos (by simpa using h1), if_pos (by simp; omega)]
        · rw [if_neg (by simpa using h1)]; omega
      omega
    · rw [if_neg (by simpa using hb)]
      rw [posCount, posCount, List.countP_cons, List.countP_cons]
      have := ih
      rw [posCount, posCount] at this
      omega

/-- Helper: decrementing a key whose count is exactly one strictly
decreases the positive-entry count (keys unique). -/
theorem posCount_decKey_lt (m : Indeg) (v : String)
    (hnd : (keysI m).Nodup) (hone : lookup0 m v = 1) (hv : v ∈ keysI m) :
    posCount (decKey m v) < posCount m := by
  induction m with
  | nil => exact absurd hv (List.not_mem_nil v)
  | cons p m ih =>
    rw [decKey]
    by_cases hb : p.1 = v
    · rw [if_pos (by simpa using hb)]
      rw [posCount, posCount, List.countP_cons, List.countP_cons]
      rw [lookup0, if_pos (by simpa using hb)] at hone
      rw [hone]
      norm_num
    · rw [if_neg (by simpa using hb)]
      have hv2 : v ∈ keysI m := by
        rcases List.mem_cons.mp hv with h1 | h1
        · exact absurd h1.symm hb
        · exact h1
      rw [lookup0, if_neg (by simpa using hb)] at hone
      have hnd2 : (keysI m).Nodup := by
        rw [keysI, List.map_cons] at hnd
        exact hnd.of_cons
      have := ih hnd2 hone hv2
      rw [posCount, posCount, List.countP_cons, List.countP_cons]
      rw [posCount, posCount] at this
      omega

/-- Helper: `decKey` on an absent key is the identity. -/
theorem decKey_of_not_mem {m : Indeg} {v : String} (h : v ∉ keysI m) :
    decKey m v = m := by
  induction m with
  | nil => rfl
  | cons p m ih =>
    rw [decKey]
    have hne : p.1 ≠ v := fun he => h (by simp [keysI, he])
    rw [if_neg (by simpa using hne)]
    rw [ih (fun hm => h (by simp [keysI] at hm ⊢; exact Or.inr hm))]

/-- Helper: one step of the successor fold. -/
theorem stepSuccs_cons (m : Indeg) (q : List String) (v : String)
    (ns : List String) :
    stepSuccs m q (v :: ns) =
      stepSuccs (decKey m v)
        (if lookup0 (decKey m v) v == 0 then q ++ [v] else q) ns := by
  by_cases h : (lookup0 (decKey m v) v == 0)
  · rw [stepSuccs, stepSuccs, List.foldl_cons]
    congr 1
    show (if lookup0 (decKey m v) v == 0 then (decKey m v, q ++ [v])
      else (decKey m v, q)) = _
    rw [if_pos h, if_pos h]
  · rw [stepSuccs, stepSuccs, List.foldl_cons]
    congr 1
    show (if lookup0 (decKey m v) v == 0 then (decKey m v, q ++ [v])
      else (decKey m v, q)) = _
    rw [if_neg h, if_neg h]

/-- Helper: full characterization of one dequeue's successor
processing: keys are preserved, each successor's count drops by its
multiplicity, and the queue grows by exactly the distinct successors
whose count reaches zero, each appended once. -/
theorem stepSuccs_spec :
    ∀ (ns : List String) (m : Indeg) (q0 : List String),
      (keysI m).Nodup → (∀ v ∈ ns, v ∈ keysI m) →
      (∀ v, (ns.count v : Int) ≤ lookup0 m v) →
      keysI (stepSuccs m q0 ns).1 = keysI m ∧
      (∀ w, lookup0 (stepSuccs m q0 ns).1 w =
        lookup0 m w - (ns.count w : Int)) ∧
      ∃ ext, (stepSuccs m q0 ns).2 = q0 ++ ext ∧ ext.Nodup ∧
        (∀ v, v ∈ ext ↔ v ∈ ns ∧ lookup0 (stepSuccs m q0 ns).1 v = 0) := by
  intro ns
  induction ns with
  | nil =>
    intro m q0 _ _ _
    refine ⟨rfl, fun w => by simp [stepSuccs], [], by simp [stepSuccs], List.nodup_nil, ?_⟩
    intro v
    simp
  | cons v ns ih =>
    intro m q0 hnd hks hbig
    have hvk : v ∈ keysI m := hks v (List.mem_cons_self v ns)
    have hlv : lookup0 (decKey m v) v = lookup0 m v - 1 :=
      lookup0_decKey_self m v hvk
    have hcnt : ((v :: ns).count v : Int) ≤ lookup0 m v := hbig v
    have hcv : (v :: ns).count v = ns.count v + 1 := by
      rw [List.count_cons]; simp
    have hks2 : ∀ w ∈ ns, w ∈ keysI (decKey m v) := by
      intro w hw
      rw [keysI_decKey]
      exact hks w (List.mem_cons_of_mem v hw)
    have hnd2 : (keysI (decKey m v)).Nodup := by rw [keysI_decKey]; exact hnd
    have hbig2 : ∀ w, ((ns.count w : Int)) ≤ lookup0 (decKey m v) w := by
      intro w
      by_cases hwv : w = v
      · subst hwv
        rw [hlv]
        have := hbig w
        rw [hcv] at this
        push_cast at this ⊢
        omega
      · rw [lookup0_decKey_other m v w hwv]
        have := hbig w
        rw [List.count_cons, if_neg (by simp; exact fun h => hwv h.symm)] at this
        simpa using this
    rw [stepSuccs_cons]
    by_cases hz : (lookup0 (decKey m v) v == 0)
    · rw [if_pos hz]
      have hz2 : lookup0 (decKey m v) v = 0 := by simpa using hz
      have hone : lookup0 m v = 1 := by omega
      have hnscount : ns.count v = 0 := by
        have := hbig v
        rw [hcv] at this
        push_cast at this
        omega
      obtain ⟨hkeys, hlook, ext, hqe, hextnd, hextmem⟩ :=
        ih (decKey m v) (q0 ++ [v]) hnd2 hks2 hbig2
      refine ⟨by rw [hkeys, keysI_decKey], ?_, v :: ext, ?_, ?_, ?_⟩
      · intro w
        rw [hlook w]
        by_cases hwv : w = v
        · subst hwv
          rw [hlv, hcv]
          push_cast
          omega
        · rw [lookup0_decKey_other m v w hwv, List.count_cons,
            if_neg (by simp; exact fun h => hwv h.symm)]
          simp
      · rw [hqe, List.append_assoc]
        rfl
      · refine List.nodup_cons.mpr ⟨?_, hextnd⟩
        intro hvext
        obtain ⟨hvns, -⟩ := (hextmem v).mp hvext
        rw [← List.count_pos_iff] at hvns
        omega
      · intro w
        by_cases hwv : w = v
        · subst hwv
          constructor
          · intro _
            refine ⟨List.mem_cons_self w ns, ?_⟩
            rw [hlook w, hz2]
            omega
          · intro _
            exact List.mem_cons_self w ext
        · constructor
          · intro hw
            have hw2 : w ∈ ext := by
              rcases List.mem_cons.mp hw with h1 | h1
              · exact absurd h1 hwv
              · exact h1
            obtain ⟨h3, h4⟩ := (hextmem w).mp hw2
            exact ⟨List.mem_cons_of_mem v h3, h4⟩
          · intro ⟨hw1, hw2⟩
            have hw3 : w ∈ ns := by
              rcases List.mem_cons.mp hw1 with h1 | h1
              · exact absurd h1 hwv
              · exact h1
            exact List.mem_cons_of_mem v ((hextmem w).mpr ⟨hw3, hw2⟩)
    · rw [if_neg hz]
      have hz2 : lookup0 (decKey m v) v ≠ 0 := by simpa using hz
      obtain ⟨hkeys, hlook, ext, hqe, hextnd, hextmem⟩ :=
        ih (decKey m v) q0 hnd2 hks2 hbig2
      refine ⟨by rw [hkeys, keysI_decKey], ?_, ext, hqe, hextnd, ?_⟩
      · intro w
        rw [hlook w]
        by_cases hwv : w = v
        · subst hwv
          rw [hlv, hcv]
          push_cast
          omega
        · rw [lookup0_decKey_other m v w hwv, List.count_cons,
            if_neg (by simp; exact fun h => hwv h.symm)]
          simp
      · intro w
        by_cases hwv : w = v
        · subst hwv
          constructor
          · intro hw
            obtain ⟨h3, h4⟩ := (hextmem w).mp hw
            exact ⟨List.mem_cons_of_mem w h3, h4⟩
          · intro ⟨hw1, hw2⟩
            refine (hextmem w).mpr ⟨?_, hw2⟩
            by_contra hnot
            have hc0 : ns.count w = 0 := List.count_eq_zero.mpr hnot
            rw [hlook w, hc0] at hw2
            push_cast at hw2
            omega
        · constructor
          · intro hw
            obtain ⟨h3, h4⟩ := (hextmem w).mp hw
            exact ⟨List.mem_cons_of_mem v h3, h4⟩
          · intro ⟨hw1, hw2⟩
            have hw3 : w ∈ ns := by
              rcases List.mem_cons.mp hw1 with h1 | h1
              · exact absurd h1 hwv
              · exact h1
            exact (hextmem w).mpr ⟨hw3, hw2⟩

/-! ### Building the in-degree table -/

/-- Helper: the initial table reads zero everywhere. -/
theorem lookup0_initIndeg (g : Graph) (w : String) :
    lookup0 (initIndeg g) w = 0 := by
  induction g with
  | nil => rfl
  | cons p g ih =>
    rw [initIndeg, List.map_cons, lookup0]
    by_cases h : p.1 = w
    · rw [if_pos (by simpa using h)]
    · rw [if_neg (by simpa using h)]
      exact ih

/-- Helper: the initial table's keys are the graph's keys. -/
theorem keysI_initIndeg (g : Graph) : keysI (initIndeg g) = keysOf g := by
  rw [keysI, initIndeg, keysOf, List.map_map]
  rfl

/-- Helper: `bump` increments the bumped key. -/
theorem lookup0_bump_self (m : Indeg) (v : String) :
    lookup0 (bump m v) v = lookup0 m v + 1 := by
  induction m with
  | nil => simp [bump, lookup0]
  | cons p m ih =>
    rw [bump]
    by_cases h : p.1 = v
    · rw [if_pos (by simpa using h), lookup0, lookup0,
        if_pos (by simpa using h), if_pos (by simpa using h)]
    · rw [if_neg (by simpa using h), lookup0, lookup0,
        if_neg (by simpa using h), if_neg (by simpa using h)]
      exact ih

/-- Helper: `bump` leaves other keys unchanged. -/
theorem lookup0_bump_other (m : Indeg) (v w : String) (h : w ≠ v) :
    lookup0 (bump m v) w = lookup0 m w := by
  induction m with
  | nil =>
    show (if v == w then (1 : Int) else lookup0 [] w) = lookup0 [] w
    rw [if_neg (by simp; exact fun he => h he.symm)]
  | cons p m ih =>
    rw [bump]
    by_cases hb : p.1 = v
    · rw [if_pos (by simpa using hb), lookup0, lookup0]
      have hw : (p.1 == w) = false := by
        simp
        intro he
        exact h (he.symm.trans hb)
      rw [if_neg (by simp [hw]), if_neg (by simp [hw])]
    · rw [if_neg (by simpa using hb), lookup0, lookup0]
      by_cases hw : p.1 = w
      · rw [if_pos (by simpa using hw), if_pos (by simpa using hw)]
      · rw [if_neg (by simpa using hw), if_neg (by simpa using hw)]
        exact ih

/-- Helper: key membership after `bump`. -/
theorem mem_keysI_bump (m : Indeg) (v w : String) :
    w ∈ keysI (bump m v) ↔ w ∈ keysI m ∨ w = v := by
  induction m with
  | nil => simp [bump, keysI]
  | cons p m ih =>
    rw [bump]
    by_cases hb : p.1 = v
    · rw [if_pos (by simpa using hb)]
      simp only [keysI, List.map_cons, List.mem_cons]
      constructor
      · intro h; exact Or.inl h
      · rintro (h1 | h1)
        · exact h1
        · exact Or.inl (by rw [h1, ← hb])
    · rw [if_neg (by simpa using hb)]
      simp only [keysI, List.map_cons, List.mem_cons] at ih ⊢
      rw [ih]
      tauto

/-- Helper: `bump` preserves key uniqueness. -/
theorem nodup_keysI_bump (m : Indeg) (v : String)
    (h : (keysI m).Nodup) : (keysI (bump m v)).Nodup := by
  induction m with
  | nil => simp [bump, keysI]
  | cons p m ih =>
    rw [bump]
    rw [keysI, List.map_cons, List.nodup_cons] at h
    by_cases hb : p.1 = v
    · rw [if_pos (by simpa using hb)]
      rw [keysI, List.map_cons, List.nodup_cons]
      exact ⟨h.1, h.2⟩
    · rw [if_neg (by simpa using hb)]
      rw [keysI, List.map_cons, List.nodup_cons]
      refine ⟨?_, ih h.2⟩
      intro hmem
      rcases (mem_keysI_bump m v p.1).mp hmem with h1 | h1
      · exact h.1 h1
      · exact hb h1

/-- Helper: reading after folding `bump` over a list adds the list's
multiplicity. -/
theorem lookup0_foldl_bump (l : List String) :
    ∀ (m : Indeg) (w : String),
      lookup0 (l.foldl bump m) w = lookup0 m w + (l.count w : Int) := by
  induction l with
  | nil => intro m w; simp
  | cons v l ih =>
    intro m w
    rw [List.foldl_cons, ih]
    by_cases h : w = v
    · subst h
      rw [lookup0_bump_self, List.count_cons]
      simp
      omega
    · rw [lookup0_bump_other m v w h, List.count_cons,
        if_neg (by simp; exact fun he => h he.symm)]
      push_cast
      omega

/-- Helper: key membership after folding `bump`. -/
theorem mem_keysI_foldl_bump (l : List String) :
    ∀ (m : Indeg) (w : String),
      w ∈ keysI (l.foldl bump m) ↔ w ∈ keysI m ∨ w ∈ l := by
  induction l with
  | nil => intro m w; simp
  | cons v l ih =>
    intro m w
    rw [List.foldl_cons, ih, mem_keysI_bump]
    simp [List.mem_cons]
    tauto

/-- Helper: folding `bump` preserves key uniqueness. -/
theorem nodup_keysI_foldl_bump (l : List String) :
    ∀ m : Indeg, (keysI m).Nodup → (keysI (l.foldl bump m)).Nodup := by
  induction l with
  | nil => intro m h; exact h
  | cons v l ih =>
    intro m h
    rw [List.foldl_cons]
    exact ih _ (nodup_keysI_bump m v h)

/-- Helper: the computed table reads the successor multiset's
multiplicity everywhere. -/
theorem lookup0_computeIndeg (g : Graph) (w : String) :
    lookup0 (computeIndeg g) w = ((allSuccs g).count w : Int) := by
  rw [computeIndeg]
  have hgen : ∀ (gs : Graph) (m : Indeg),
      lookup0 (gs.foldl (fun m p => p.2.foldl bump m) m) w =
        lookup0 m w + (((gs.map (fun p => p.2)).flatten).count w : Int) := by
    intro gs
    induction gs with
    | nil => intro m; simp
    | cons p gs ih =>
      intro m
      rw [List.foldl_cons, ih, lookup0_foldl_bump]
      rw [List.map_cons, List.flatten_cons, List.count_append]
      push_cast
      omega
  rw [hgen, lookup0_initIndeg, allSuccs]
  omega

/-- Helper: key membership in the computed table. -/
theorem mem_keysI_computeIndeg (g : Graph) (w : String) :
    w ∈ keysI (computeIndeg g) ↔ w ∈ keysOf g ∨ w ∈ allSuccs g := by
  rw [computeIndeg]
  have hgen : ∀ (gs : Graph) (m : Indeg),
      w ∈ keysI (gs.foldl (fun m p => p.2.foldl bump m) m) ↔
        w ∈ keysI m ∨ w ∈ (gs.map (fun p => p.2)).flatten := by
    intro gs
    induction gs with
    | nil => intro m; simp
    | cons p gs ih =>
      intro m
      rw [List.foldl_cons, ih, mem_keysI_foldl_bump]
      rw [List.map_cons, List.flatten_cons]
      simp [List.mem_append]
      tauto
  rw [hgen, keysI_initIndeg, allSuccs]

/-- Helper: the computed table has unique keys when the graph does. -/
theorem nodup_keysI_computeIndeg (g : Graph)
    (h : (keysOf g).Nodup) : (keysI (computeIndeg g)).Nodup := by
  rw [computeIndeg]
  have hgen : ∀ (gs : Graph) (m : Indeg), (keysI m).Nodup →
      (keysI (gs.foldl (fun m p => p.2.foldl bump m) m)).Nodup := by
    intro gs
    induction gs with
    | nil => intro m hm; exact hm
    | cons p gs ih =>
      intro m hm
      rw [List.foldl_cons]
      exact ih _ (nodup_keysI_foldl_bump p.2 m hm)
  exact hgen g (initIndeg g) (by rw [keysI_initIndeg]; exact h)

/-- Helper: membership in the seed queue of a unique-key table. -/
theorem mem_seedQueue (m : Indeg) (hnd : (keysI m).Nodup) (v : String) :
    v ∈ seedQueue m ↔ v ∈ keysI m ∧ lookup0 m v = 0 := by
  induction m with
  | nil => simp [seedQueue, keysI]
  | cons p m ih =>
    rw [keysI, List.map_cons, List.nodup_cons] at hnd
    rw [seedQueue, List.filter_cons]
    by_cases hz : p.2 = 0
    · rw [if_pos (by simpa using hz)]
      rw [List.map_cons]
      constructor
      · intro h
        rcases List.mem_cons.mp h with h1 | h1
        · subst h1
          exact ⟨by simp [keysI], by rw [lookup0, if_pos (by simp)]; exact hz⟩
        · obtain ⟨h2, h3⟩ := (ih hnd.2).mp (by rw [seedQueue]; exact h1)
          refine ⟨by simp [keysI] at h2 ⊢; exact Or.inr h2, ?_⟩
          rw [lookup0]
          rw [if_neg (by simp; intro he; exact hnd.1 (he ▸ h2))]
          exact h3
      · rintro ⟨h1, h2⟩
        by_cases hv : p.1 = v
        · rw [← hv]
          exact List.mem_cons_self _ _
        · have h1m : v ∈ keysI m := by
            simp [keysI] at h1 ⊢
            rcases h1 with h3 | h3
            · exact absurd h3.symm hv
            · exact h3
          rw [lookup0, if_neg (by simpa using hv)] at h2
          exact List.mem_cons_of_mem _ ((ih hnd.2).mpr ⟨h1m, h2⟩)
    · rw [if_neg (by simpa using hz)]
      constructor
      · intro h
        obtain ⟨h2, h3⟩ := (ih hnd.2).mp (by rw [seedQueue]; exact h)
        refine ⟨by simp [keysI] at h2 ⊢; exact Or.inr h2, ?_⟩
        rw [lookup0]
        rw [if_neg (by simp; intro he; exact hnd.1 (he ▸ h2))]
        exact h3
      · rintro ⟨h1, h2⟩
        by_cases hv : p.1 = v
        · rw [lookup0, if_pos (by simpa using hv)] at h2
          exact absurd h2 hz
        · have h1m : v ∈ keysI m := by
            simp [keysI] at h1 ⊢
            rcases h1 with h3 | h3
            · exact absurd h3.symm hv
            · exact h3
          rw [lookup0, if_neg (by simpa using hv)] at h2
          exact (ih hnd.2).mpr ⟨h1m, h2⟩

/-- Helper: the seed queue is a sublist of the key list. -/
theorem seedQueue_sublist (m : Indeg) : (seedQueue m).Sublist (keysI m) := by
  rw [seedQueue, keysI]
  exact (List.filter_sublist m).map (fun p => p.1)

/-- Helper: the seed queue of a unique-key table has no duplicates. -/
theorem seedQueue_nodup (m : Indeg) (hnd : (keysI m).Nodup) :
    (seedQueue m).Nodup := (seedQueue_sublist m).nodup hnd

/-- Helper: counting over a flattened list is the sum of the counts. -/
theorem count_flatten_eq_sum (L : List (List String)) (v : String) :
    L.flatten.count v = (L.map (fun s => s.count v)).sum := by
  induction L with
  | nil => rfl
  | cons s L ih =>
    rw [List.flatten_cons, List.count_append, ih, List.map_cons, List.sum_cons]

/-- Helper: sums of pointwise sums split. -/
theorem sum_map_add_nat {A : Type} (l : List A) (f h : A → Nat) :
    (l.map (fun x => f x + h x)).sum = (l.map f).sum + (l.map h).sum := by
  induction l with
  | nil => rfl
  | cons a l ih =>
    rw [List.map_cons, List.sum_cons, ih, List.map_cons, List.sum_cons,
      List.map_cons, List.sum_cons]
    omega

/-- Helper: summing an indicator counts occurrences. -/
theorem sum_map_indicator {A : Type} [DecidableEq A] (l : List A) (a : A)
    (k : Nat) :
    (l.map (fun x => if a = x then k else 0)).sum = l.count a * k := by
  induction l with
  | nil => simp
  | cons b l ih =>
    rw [List.map_cons, List.sum_cons, ih, List.count_cons]
    by_cases h : a = b
    · rw [if_pos h, if_pos (by simpa using h.symm)]
      ring
    · rw [if_neg h, if_neg (by simp; exact fun he => h he.symm)]
      ring

/-- Helper: distinct sources pull from distinct adjacency rows, so
their successor multisets are bounded by the whole graph's. -/
theorem count_flatten_succs_le (g : Graph) :
    ∀ (l : List String), l.Nodup → ∀ v : String,
      ((l.map (succs g)).flatten).count v ≤ (allSuccs g).count v := by
  induction g with
  | nil =>
    intro l _ v
    rw [count_flatten_eq_sum, List.map_map]
    have hz : ∀ u ∈ l, ((fun s => s.count v) ∘ succs []) u = 0 :=
      fun u _ => rfl
    rw [List.map_congr_left hz]
    simp
  | cons p g ih =>
    intro l hl v
    rw [count_flatten_eq_sum, List.map_map]
    have hbound : ∀ u ∈ l, ((fun s => s.count v) ∘ succs (p :: g)) u ≤
        (fun u => (if p.1 = u then p.2.count v else 0) +
          (succs g u).count v) u := by
      intro u _
      show ((if p.1 == u then p.2 else succs g u).count v) ≤ _
      by_cases h : p.1 = u
      · simp [h]
      · simp [h]
    have h1 := List.sum_le_sum hbound
    rw [sum_map_add_nat l (fun u => if p.1 = u then p.2.count v else 0)
      (fun u => (succs g u).count v)] at h1
    rw [sum_map_indicator l p.1 (p.2.count v)] at h1
    have h4 : l.count p.1 ≤ 1 := List.nodup_iff_count_le_one.mp hl p.1
    have h4b : l.count p.1 * p.2.count v ≤ p.2.count v := by
      calc l.count p.1 * p.2.count v ≤ 1 * p.2.count v :=
            Nat.mul_le_mul_right _ h4
        _ = p.2.count v := Nat.one_mul _
    have h5 : (l.map (fun u => (succs g u).count v)).sum ≤
        (allSuccs g).count v := by
      have hih := ih l hl v
      rw [count_flatten_eq_sum, List.map_map] at hih
      exact hih
    have hcons : (allSuccs (p :: g)).count v =
        p.2.count v + (allSuccs g).count v := by
      rw [allSuccs, List.map_cons, List.flatten_cons, List.count_append]
      rfl
    rw [hcons]
    omega

/-- Helper: processing a dequeued node's successors does not increase
the loop's termination measure. -/
theorem stepSuccs_measure :
    ∀ (ns : List String) (m : Indeg) (q : List String),
      (keysI m).Nodup → (∀ v ∈ ns, v ∈ keysI m) →
      kMeasure (stepSuccs m q ns).1 (stepSuccs m q ns).2 ≤ kMeasure m q := by
  intro ns
  induction ns with
  | nil =>
    intro m q _ _
    exact Nat.le_refl _
  | cons v ns ih =>
    intro m q hnd hks
    have hvk : v ∈ keysI m := hks v (List.mem_cons_self v ns)
    rw [stepSuccs_cons]
    have hnd2 : (keysI (decKey m v)).Nodup := by
      rw [keysI_decKey]; exact hnd
    have hks2 : ∀ w ∈ ns, w ∈ keysI (decKey m v) := by
      intro w hw; rw [keysI_decKey]; exact hks w (List.mem_cons_of_mem v hw)
    by_cases hz : (lookup0 (decKey m v) v == 0)
    · rw [if_pos hz]
      refine Nat.le_trans (ih (decKey m v) (q ++ [v]) hnd2 hks2) ?_
      have hz2 : lookup0 (decKey m v) v = 0 := by simpa using hz
      have hone : lookup0 m v = 1 := by
        have := lookup0_decKey_self m v hvk
        omega
      have hlt := posCount_decKey_lt m v hnd hone hvk
      rw [kMeasure, kMeasure, List.length_append]
      simp only [List.length_cons, List.length_nil]
      omega
    · rw [if_neg hz]
      refine Nat.le_trans (ih (decKey m v) q hnd2 hks2) ?_
      have hle := posCount_decKey_le m v
      rw [kMeasure, kMeasure]
      omega

/-- Helper: an edge target is among the flattened successors. -/
theorem mem_allSuccs_of_edge {g : Graph} {u v : String}
    (h : Edge g u v) : v ∈ allSuccs g := by
  induction g with
  | nil => exact absurd h (List.not_mem_nil v)
  | cons p g ih =>
    rw [Edge, succs] at h
    rw [allSuccs, List.map_cons, List.flatten_cons, List.mem_append]
    by_cases hb : p.1 = u
    · rw [if_pos (by simpa using hb)] at h
      exact Or.inl h
    · rw [if_neg (by simpa using hb)] at h
      exact Or.inr (ih h)

/-- Helper: one dequeue of the Kahn/BFS loop preserves the invariant. -/
theorem kahnStep_inv (g : Graph) (m0 : Indeg)
    (hl0 : ∀ w, lookup0 m0 w = ((allSuccs g).count w : Int))
    (hclosed : ∀ u v, Edge g u v → v ∈ keysI m0)
    (hnd0 : (keysI m0).Nodup) (m : Indeg) (c : String) (q res : List String)
    (hinv : KInv g m0 m (c :: q) res) :
    KInv g m0 (stepSuccs m q (succs g c)).1 (stepSuccs m q (succs g c)).2
      (res ++ [c]) := by
  obtain ⟨ha, hb, hc, hd, he, hf⟩ := hinv
  have hkc := (hc c).mp (Or.inr (List.mem_cons_self c q))
  have hcnotres : c ∉ res := by
    have hdisj := List.disjoint_of_nodup_append hd
    intro hmem
    exact hdisj hmem (List.mem_cons_self c q)
  have hresnd : res.Nodup := List.Nodup.of_append_left hd
  have hndresc : (res ++ [c]).Nodup := by
    refine List.Nodup.append hresnd (List.nodup_singleton c) ?_
    intro x hx hxc
    rw [List.mem_singleton] at hxc
    subst hxc
    exact hcnotres hx
  have hndm : (keysI m).Nodup := by rw [ha]; exact hnd0
  have hks : ∀ v ∈ succs g c, v ∈ keysI m := by
    intro v hv
    rw [ha]
    exact hclosed c v hv
  have hproc : ∀ v : String,
      (((res ++ [c]).map (succs g)).flatten).count v =
        ((res.map (succs g)).flatten).count v + (succs g c).count v := by
    intro v
    rw [List.map_append, List.flatten_append, List.count_append]
    simp
  have hbig : ∀ v, (((succs g c).count v : Int)) ≤ lookup0 m v := by
    intro v
    rw [hb v, hl0 v]
    have := count_flatten_succs_le g (res ++ [c]) hndresc v
    rw [hproc v] at this
    omega
  obtain ⟨hkeys, hlook, ext, hqe, hextnd, hextmem⟩ :=
    stepSuccs_spec (succs g c) m q hndm hks hbig
  have hccount : (succs g c).count c = 0 := by
    have h1 := hbig c
    have h2 := hkc.2
    omega
  have hextkeys : ∀ v ∈ ext, v ∈ keysI m0 := by
    intro v hv
    obtain ⟨h1, -⟩ := (hextmem v).mp hv
    exact hclosed c v h1
  have hextpos : ∀ v ∈ ext, lookup0 m v ≠ 0 := by
    intro v hv
    obtain ⟨h1, -⟩ := (hextmem v).mp hv
    have hge : 1 ≤ (succs g c).count v := List.count_pos_iff.mpr h1
    have := hbig v
    omega
  refine ⟨hkeys.trans ha, ?_, ?_, ?_, ?_, ?_⟩
  · intro w
    rw [hlook w, hb w, hproc w]
    push_cast
    omega
  · intro v
    rw [hqe]
    constructor
    · intro hv
      rcases hv with hv | hv
      · rcases List.mem_append.mp hv with hv | hv
        · have hold := (hc v).mp (Or.inl hv)
          refine ⟨hold.1, ?_⟩
          rw [hlook v]
          have hcnt : (succs g c).count v = 0 := by
            have := hbig v
            have := hold.2
            omega
          rw [hcnt, hold.2]
          simp
        · rw [List.mem_singleton] at hv
          subst hv
          refine ⟨hkc.1, ?_⟩
          rw [hlook v, hccount, hkc.2]
          simp
      · rcases List.mem_append.mp hv with hv | hv
        · have hold := (hc v).mp (Or.inr (List.mem_cons_of_mem c hv))
          refine ⟨hold.1, ?_⟩
          rw [hlook v]
          have hcnt : (succs g c).count v = 0 := by
            have := hbig v
            have := hold.2
            omega
          rw [hcnt, hold.2]
          simp
        · obtain ⟨h1, h2⟩ := (hextmem v).mp hv
          exact ⟨hclosed c v h1, h2⟩
    · rintro ⟨h1, h2⟩
      rw [hlook v] at h2
      by_cases hns : v ∈ succs g c
      · refine Or.inr (List.mem_append.mpr (Or.inr ?_))
        refine (hextmem v).mpr ⟨hns, ?_⟩
        rw [hlook v]
        exact h2
      · have hcnt : (succs g c).count v = 0 := List.count_eq_zero.mpr hns
        rw [hcnt] at h2
        have hzero : lookup0 m v = 0 := by omega
        have hold := (hc v).mpr ⟨h1, hzero⟩
        rcases hold with hv | hv
        · exact Or.inl (List.mem_append.mpr (Or.inl hv))
        · rcases List.mem_cons.mp hv with hv | hv
          · exact Or.inl (List.mem_append.mpr (Or.inr (by simp [hv])))
          · exact Or.inr (List.mem_append.mpr (Or.inl hv))
  · have hperm : res ++ [c] ++ (q ++ ext) = (res ++ c :: q) ++ ext := by
      simp
    rw [hqe, hperm]
    refine List.Nodup.append hd hextnd ?_
    intro x hx hxe
    have hpos := hextpos x hxe
    rcases List.mem_append.mp hx with hv | hv
    · exact hpos ((hc x).mp (Or.inl hv)).2
    · exact hpos ((hc x).mp (Or.inr hv)).2
  · intro v hv
    rw [hqe] at hv
    rcases List.mem_append.mp hv with hv | hv
    · rcases List.mem_append.mp hv with hv | hv
      · exact he v (List.mem_append.mpr (Or.inl hv))
      · rw [List.mem_singleton] at hv
        subst hv
        exact hkc.1
    · rcases List.mem_append.mp hv with hv | hv
      · exact he v (List.mem_append.mpr (Or.inr (List.mem_cons_of_mem c hv)))
      · exact hextkeys v hv
  · intro u v huv hv
    rcases List.mem_append.mp hv with hv | hv
    · obtain ⟨h1, h2⟩ := hf u v huv hv
      refine ⟨List.mem_append.mpr (Or.inl h1), ?_⟩
      rw [List.indexOf_append_of_mem h1, List.indexOf_append_of_mem hv]
      exact h2
    · rw [List.mem_singleton] at hv
      subst hv
      have hu : u ∈ res := by
        by_contra hnot
        have hndresu : (res ++ [u]).Nodup := by
          refine List.Nodup.append hresnd (List.nodup_singleton u) ?_
          intro x hx hxu
          rw [List.mem_singleton] at hxu
          subst hxu
          exact hnot hx
        have hle := count_flatten_succs_le g (res ++ [u]) hndresu v
        have hprocu : (((res ++ [u]).map (succs g)).flatten).count v =
            ((res.map (succs g)).flatten).count v + (succs g u).count v := by
          rw [List.map_append, List.flatten_append, List.count_append]
          simp
        rw [hprocu] at hle
        have hpos : 1 ≤ (succs g u).count v := List.count_pos_iff.mpr huv
        have heq0 := hkc.2
        rw [hb v] at heq0
        rw [hl0 v] at heq0
        omega
      refine ⟨List.mem_append.mpr (Or.inl hu), ?_⟩
      rw [List.indexOf_append_of_mem hu,
        List.indexOf_append_of_not_mem hcnotres]
      have h1 : res.indexOf u < res.length := List.indexOf_lt_length.mpr hu
      have h2 : List.indexOf v [v] = 0 := List.indexOf_cons_self v []
      omega

/-- Helper: the Kahn/BFS queue loop, run with fuel at least its
measure, terminates with an empty queue and preserves the invariant. -/
theorem kahnLoop_spec (g : Graph) (m0 : Indeg)
    (hl0 : ∀ w, lookup0 m0 w = ((allSuccs g).count w : Int))
    (hclosed : ∀ u v, Edge g u v → v ∈ keysI m0)
    (hnd0 : (keysI m0).Nodup) :
    ∀ (fuel : Nat) (m : Indeg) (q res : List String),
      kMeasure m q ≤ fuel → KInv g m0 m q res →
      ∃ mf resf, kahnLoop g fuel m q res = (mf, resf) ∧
        KInv g m0 mf [] resf := by
  intro fuel
  induction fuel with
  | zero =>
    intro m q res hmeas hinv
    have hq : q = [] := by
      rw [kMeasure] at hmeas
      cases q with
      | nil => rfl
      | cons a q => simp at hmeas
    subst hq
    exact ⟨m, res, rfl, hinv⟩
  | succ fuel ih =>
    intro m q res hmeas hinv
    cases q with
    | nil => exact ⟨m, res, rfl, hinv⟩
    | cons c q =>
      have hstep := kahnStep_inv g m0 hl0 hclosed hnd0 m c q res hinv
      have hndm : (keysI m).Nodup := by rw [hinv.1]; exact hnd0
      have hks : ∀ v ∈ succs g c, v ∈ keysI m := by
        intro v hv
        rw [hinv.1]
        exact hclosed c v hv
      have hmeas2 : kMeasure (stepSuccs m q (succs g c)).1
          (stepSuccs m q (succs g c)).2 ≤ fuel := by
        have h1 := stepSuccs_measure (succs g c) m q hndm hks
        have h2 : kMeasure m (c :: q) = kMeasure m q + 1 := by
          rw [kMeasure, kMeasure, List.length_cons]
          omega
        omega
      obtain ⟨mf, resf, hrun, hinvf⟩ :=
        ih (stepSuccs m q (succs g c)).1 (stepSuccs m q (succs g c)).2
          (res ++ [c]) hmeas2 hstep
      refine ⟨mf, resf, ?_, hinvf⟩
      show kahnLoop g (fuel + 1) m (c :: q) res = (mf, resf)
      rw [kahnLoop]
      exact hrun

/-- Helper: the freshly computed table with its seed queue satisfies
the loop invariant. -/
theorem kahnSeed_inv (g : Graph) (hgnd : (keysOf g).Nodup) :
    KInv g (computeIndeg g) (computeIndeg g)
      (seedQueue (computeIndeg g)) [] := by
  have hnd0 := nodup_keysI_computeIndeg g hgnd
  refine ⟨rfl, ?_, ?_, ?_, ?_, ?_⟩
  · intro w
    simp
  · intro v
    rw [mem_seedQueue (computeIndeg g) hnd0 v]
    simp
  · simpa using seedQueue_nodup (computeIndeg g) hnd0
  · intro v hv
    rw [List.nil_append] at hv
    exact (seedQueue_sublist (computeIndeg g)).mem hv
  · intro u v _ hv
    exact absurd hv (List.not_mem_nil v)

/-- Helper: a non-key has no successors. -/
theorem succs_eq_nil_of_not_mem_keys {g : Graph} {u : String}
    (h : u ∉ keysOf g) : succs g u = [] := by
  induction g with
  | nil => rfl
  | cons p g ih =>
    rw [succs]
    have hne : p.1 ≠ u := fun he => h (by simp [keysOf, he])
    rw [if_neg (by simpa using hne)]
    exact ih (fun hm => h (by simp [keysOf] at hm ⊢; exact Or.inr hm))

/-- Helper: with unique keys, the flattened edge pairs are exactly the
edge relation. -/
theorem mem_edgeList_iff_edge {g : Graph} (hgnd : (keysOf g).Nodup)
    (u v : String) : (u, v) ∈ edgeList g ↔ Edge g u v := by
  induction g with
  | nil => simp [edgeList, Edge, succs]
  | cons p g ih =>
    rw [keysOf, List.map_cons, List.nodup_cons] at hgnd
    have hrest := ih hgnd.2
    rw [edgeList, List.map_cons, List.flatten_cons, List.mem_append]
    constructor
    · intro h
      rcases h with h | h
      · rw [List.mem_map] at h
        obtain ⟨w, hw, hwe⟩ := h
        have hu : p.1 = u := congrArg Prod.fst hwe
        have hv : w = v := congrArg Prod.snd hwe
        rw [Edge, succs, if_pos (by simpa using hu)]
        rw [← hv]
        exact hw
      · have hedge := hrest.mp h
        rw [Edge, succs]
        by_cases hb : p.1 = u
        · subst hb
          have : succs g p.1 = [] :=
            succs_eq_nil_of_not_mem_keys (by
              intro hm
              exact hgnd.1 (by rw [keysOf] at hm; exact hm))
          rw [Edge, this] at hedge
          exact absurd hedge (List.not_mem_nil v)
        · rw [if_neg (by simpa using hb)]
          exact hedge
    · intro h
      rw [Edge, succs] at h
      by_cases hb : p.1 = u
      · rw [if_pos (by simpa using hb)] at h
        refine Or.inl (List.mem_map.mpr ⟨v, h, by rw [hb]⟩)
      · rw [if_neg (by simpa using hb)] at h
        exact Or.inr (hrest.mpr h)

/-- Helper: when every edge source aiming at `v` has been dequeued, the
dequeued nodes account for all of `v`'s in-edges. -/
theorem count_allSuccs_le_proc (g : Graph) (v : String) :
    ∀ (l : List String), (keysOf g).Nodup → l.Nodup →
      (∀ u, Edge g u v → u ∈ l) →
      (allSuccs g).count v ≤ ((l.map (succs g)).flatten).count v := by
  induction g with
  | nil =>
    intro l _ _ _
    simp [allSuccs]
  | cons p g ih =>
    intro l hgnd hl hall
    rw [keysOf, List.map_cons, List.nodup_cons] at hgnd
    have hpg : p.1 ∉ keysOf g := by
      intro hm
      exact hgnd.1 (by rw [keysOf] at hm; exact hm)
    have hsg : succs g p.1 = [] := succs_eq_nil_of_not_mem_keys hpg
    have hpt : ∀ u ∈ l, ((fun s => s.count v) ∘ succs (p :: g)) u =
        (fun u => (if p.1 = u then p.2.count v else 0) +
          (succs g u).count v) u := by
      intro u _
      show ((if p.1 == u then p.2 else succs g u).count v) = _
      by_cases hb : p.1 = u
      · subst hb
        rw [if_pos (by simp)]
        simp [hsg]
      · rw [if_neg (by simpa using hb)]
        simp [hb]
    rw [count_flatten_eq_sum, List.map_map, List.map_congr_left hpt,
      sum_map_add_nat l (fun u => if p.1 = u then p.2.count v else 0)
        (fun u => (succs g u).count v),
      sum_map_indicator l p.1 (p.2.count v)]
    have hcons : (allSuccs (p :: g)).count v =
        p.2.count v + (allSuccs g).count v := by
      rw [allSuccs, List.map_cons, List.flatten_cons, List.count_append]
      rfl
    rw [hcons]
    have hall2 : ∀ u, Edge g u v → u ∈ l := by
      intro u hu
      refine hall u ?_
      rw [Edge, succs]
      by_cases hb : p.1 = u
      · subst hb
        rw [Edge, hsg] at hu
        exact absurd hu (List.not_mem_nil v)
      · rw [if_neg (by simpa using hb)]
        exact hu
    have hih := ih l hgnd.2 hl hall2
    rw [count_flatten_eq_sum, List.map_map] at hih
    have hcomp : (l.map ((fun s => List.count v s) ∘ succs g)).sum =
        (l.map (fun u => (succs g u).count v)).sum := rfl
    rw [hcomp] at hih
    have hfirst : p.2.count v ≤ l.count p.1 * p.2.count v := by
      by_cases hz : p.2.count v = 0
      · omega
      · have hmem : p.1 ∈ l := by
          refine hall p.1 ?_
          rw [Edge, succs, if_pos (by simp)]
          exact List.count_pos_iff.mp (by omega)
        have hone : 1 ≤ l.count p.1 := List.count_pos_iff.mpr hmem
        calc p.2.count v = 1 * p.2.count v := (Nat.one_mul _).symm
          _ ≤ l.count p.1 * p.2.count v := Nat.mul_le_mul_right _ hone
    omega

/-- Helper: a backward edge walk that repeats a node yields a cycle. -/
theorem hasCycle_of_seq_eq (g : Graph) (s : Nat → String)
    (hedge : ∀ n, Edge g (s (n + 1)) (s n)) (a b : Nat) (hab : a < b)
    (heq : s a = s b) : HasCycle g := by
  let cl : Nat → List String := fun d =>
    Nat.rec [] (fun e prev => s (a + e) :: prev) d
  have hclS : ∀ d, cl (d + 1) = s (a + d) :: cl d := fun d => rfl
  have hchain : ∀ d, List.Chain (Edge g) (s (a + d)) (cl d) := by
    intro d
    induction d with
    | zero => exact List.Chain.nil
    | succ d ih =>
      rw [hclS]
      exact List.Chain.cons (hedge (a + d)) ih
  have hlast : ∀ d, 1 ≤ d → (cl d).getLast? = some (s a) := by
    intro d
    induction d with
    | zero => intro h; exact absurd h (by omega)
    | succ d ih =>
      intro _
      cases d with
      | zero =>
        show ([s (a + 0)].getLast? = some (s a))
        simp
      | succ e =>
        have h2 := ih (by omega)
        rw [hclS, hclS]
        rw [hclS] at h2
        rw [List.getLast?_cons_cons]
        exact h2
  refine ⟨s b, cl (b - a), ?_, ?_⟩
  · have := hchain (b - a)
    rw [show a + (b - a) = b by omega] at this
    exact this
  · rw [hlast (b - a) (by omega), heq]

/-- Helper: a finite descent inside a finite set produces a cycle: if
every member of a nonempty predicate bounded by a finite list has a
predecessor inside the predicate, the graph has a cycle. -/
theorem cycle_of_descent (g : Graph) (P : String → Prop)
    (bound : List String) (hsub : ∀ v, P v → v ∈ bound)
    (hstep : ∀ v, P v → ∃ u, P u ∧ Edge g u v)
    (v0 : String) (h0 : P v0) : HasCycle g := by
  classical
  have hstep2 : ∀ x : {v : String // P v},
      ∃ y : {v : String // P v}, Edge g y.1 x.1 := by
    rintro ⟨v, hv⟩
    obtain ⟨u, hu, he⟩ := hstep v hv
    exact ⟨⟨u, hu⟩, he⟩
  choose f hf using hstep2
  let seq : Nat → {v : String // P v} := fun n =>
    Nat.rec ⟨v0, h0⟩ (fun _ prev => f prev) n
  have hseq : ∀ n, seq (n + 1) = f (seq n) := fun n => rfl
  have hedge : ∀ n, Edge g (seq (n + 1)).1 (seq n).1 := by
    intro n
    rw [hseq]
    exact hf (seq n)
  have hmaps : ∀ n ∈ Finset.range (bound.length + 1),
      (seq n).1 ∈ bound.toFinset := by
    intro n _
    exact List.mem_toFinset.mpr (hsub (seq n).1 (seq n).2)
  have hcard : bound.toFinset.card < (Finset.range (bound.length + 1)).card := by
    rw [Finset.card_range]
    exact Nat.lt_succ_of_le bound.toFinset_card_le
  obtain ⟨a, -, b, -, hab, heq⟩ :=
    Finset.exists_ne_map_eq_of_card_lt_of_maps_to hcard hmaps
  rcases Nat.lt_or_ge a b with hlt | hge
  · exact hasCycle_of_seq_eq g (fun n => (seq n).1) hedge a b hlt heq
  · have hlt2 : b < a := by omega
    exact hasCycle_of_seq_eq g (fun n => (seq n).1) hedge b a hlt2 heq.symm

/-- Helper: an edge source is a key. -/
theorem mem_keys_of_edge {g : Graph} {u v : String} (h : Edge g u v) :
    u ∈ keysOf g := by
  induction g with
  | nil => exact absurd h (List.not_mem_nil v)
  | cons p g ih =>
    rw [Edge, succs] at h
    by_cases hb : p.1 = u
    · simp [keysOf, hb]
    · rw [if_neg (by simpa using hb)] at h
      rw [keysOf, List.map_cons, List.mem_cons]
      exact Or.inr (ih h)

/-- Helper: the referenced ids are the keys and the successors. -/
theorem mem_refIds_iff (g : Graph) (x : String) :
    x ∈ refIds g ↔ x ∈ keysOf g ∨ x ∈ allSuccs g := by
  induction g with
  | nil => simp [refIds, keysOf, allSuccs]
  | cons p g ih =>
    rw [refIds, List.map_cons, List.flatten_cons, List.mem_append,
      List.mem_cons]
    rw [refIds] at ih
    rw [ih]
    simp only [keysOf, allSuccs, List.map_cons, List.mem_cons,
      List.flatten_cons, List.mem_append]
    tauto

/-- Helper: the computed table is exactly as large as the distinct node
universe. -/
theorem length_computeIndeg (g : Graph) (hgnd : (keysOf g).Nodup) :
    (computeIndeg g).length = distinctNodeCount g := by
  have hnd0 := nodup_keysI_computeIndeg g hgnd
  have hmem : ∀ w, w ∈ keysI (computeIndeg g) ↔ w ∈ nodesOf g := by
    intro w
    rw [mem_keysI_computeIndeg, nodesOf, List.mem_dedup, List.mem_append]
  have hperm : (keysI (computeIndeg g)).Perm (nodesOf g) :=
    (List.perm_ext_iff_of_nodup hnd0 (List.nodup_dedup _)).mpr hmem
  have hlen := hperm.length_eq
  rw [distinctNodeCount, ← hlen, keysI, List.length_map]

/-- Helper: in a duplicate-free order the validator's position of a
member is its index. -/
theorem posIdx_indexOf {order : List String} (hnd : order.Nodup)
    {v : String} (hmem : v ∈ order) :
    posIdx order v = some (order.indexOf v) := by
  have hlt : order.indexOf v < order.length :=
    List.indexOf_lt_length.mpr hmem
  have hget : order[order.indexOf v] = v := by
    have h := @List.indexOf_get _ _ v order hlt
    simp only [List.get_eq_getElem] at h
    exact h
  have := posIdx_of_nodup hnd hlt
  rw [hget] at this
  exact this

/-- Helper: the full Kahn run preserves the invariant into the final
state. -/
theorem kahn_run_spec (g : Graph) (hgnd : (keysOf g).Nodup) :
    ∃ mf, kahnLoop g (loopFuel (computeIndeg g)) (computeIndeg g)
        (seedQueue (computeIndeg g)) [] = (mf, kahnDequeued g) ∧
      KInv g (computeIndeg g) mf [] (kahnDequeued g) := by
  have hl0 := fun w => lookup0_computeIndeg g w
  have hclosed : ∀ u v, Edge g u v → v ∈ keysI (computeIndeg g) := by
    intro u v h
    rw [mem_keysI_computeIndeg]
    exact Or.inr (mem_allSuccs_of_edge h)
  have hnd0 := nodup_keysI_computeIndeg g hgnd
  have hmeas : kMeasure (computeIndeg g) (seedQueue (computeIndeg g)) ≤
      loopFuel (computeIndeg g) := by
    rw [kMeasure, loopFuel]
    have h1 : (seedQueue (computeIndeg g)).length ≤
        (computeIndeg g).length := by
      have := (seedQueue_sublist (computeIndeg g)).length_le
      rw [keysI, List.length_map] at this
      exact this
    have h2 : posCount (computeIndeg g) ≤ (computeIndeg g).length :=
      List.countP_le_length _
    omega
  obtain ⟨mf, resf, hrun, hinv⟩ :=
    kahnLoop_spec g (computeIndeg g) hl0 hclosed hnd0
      (loopFuel (computeIndeg g)) (computeIndeg g)
      (seedQueue (computeIndeg g)) [] hmeas (kahnSeed_inv g hgnd)
  have hres : kahnDequeued g = resf := by rw [kahnDequeued, hrun]
  subst hres
  exact ⟨mf, hrun, hinv⟩

/-- Helper: the dequeued sequence is duplicate-free, drawn from and
topologically sorted over the node universe, and on an acyclic graph it
exhausts the universe. -/
theorem kahnDequeued_spec (g : Graph) (hgnd : (keysOf g).Nodup) :
    (kahnDequeued g).Nodup ∧
    (∀ v ∈ kahnDequeued g, v ∈ keysI (computeIndeg g)) ∧
    (∀ u v, Edge g u v → v ∈ kahnDequeued g →
      u ∈ kahnDequeued g ∧
        (kahnDequeued g).indexOf u < (kahnDequeued g).indexOf v) ∧
    (Acyclic g → ∀ v ∈ keysI (computeIndeg g), v ∈ kahnDequeued g) := by
  obtain ⟨mf, hrun, ⟨ha, hb, hc, hd, he, hf⟩⟩ := kahn_run_spec g hgnd
  refine ⟨by simpa using hd, ?_, hf, ?_⟩
  · intro v hv
    exact he v (by simpa using hv)
  · intro hacy v hv
    by_contra hnot
    refine hacy (cycle_of_descent g
      (fun w => w ∈ keysI (computeIndeg g) ∧ w ∉ kahnDequeued g)
      (keysI (computeIndeg g)) (fun w hw => hw.1) ?_ v ⟨hv, hnot⟩)
    rintro w ⟨hwk, hwnot⟩
    have hnz : lookup0 mf w ≠ 0 := by
      intro hz
      refine hwnot ?_
      have hmem := (hc w).mpr ⟨hwk, hz⟩
      rcases hmem with h1 | h1
      · exact h1
      · exact absurd h1 (List.not_mem_nil w)
    have heq := hb w
    rw [lookup0_computeIndeg] at heq
    by_contra hnone
    push_neg at hnone
    have hall : ∀ u, Edge g u w → u ∈ kahnDequeued g := by
      intro u hu
      by_contra hun
      have huk : u ∈ keysI (computeIndeg g) := by
        rw [mem_keysI_computeIndeg]
        exact Or.inl (mem_keys_of_edge hu)
      exact hnone u ⟨huk, hun⟩ hu
    have hge := count_allSuccs_le_proc g w (kahnDequeued g) hgnd
      (by simpa using hd) hall
    have hle := count_flatten_succs_le g (kahnDequeued g)
      (by simpa using hd) w
    omega

/-- Helper: the validator accepts any duplicate-free order that lists
every referenced id and places every edge source before its target. -/
theorem validate_accepts (g : Graph) (hgnd : (keysOf g).Nodup)
    (order : List String) (hnd : order.Nodup) (hne : order ≠ [])
    (hmem : ∀ x ∈ refIds g, x ∈ order)
    (htgt : ∀ u v, Edge g u v → v ∈ order)
    (hsorted : ∀ u v, Edge g u v → v ∈ order →
      u ∈ order ∧ order.indexOf u < order.indexOf v) :
    validate_topological_order g order =
      .ok (true, "Valid topological order") := by
  rw [validate_eq_valScan g order hne]
  have hall : ∀ e ∈ edgeList g,
      ((posIdx order) e.1).isSome ∧ ((posIdx order) e.2).isSome := by
    intro e he
    obtain ⟨hu, hv⟩ :=
      mem_refIds_of_mem_edgeList (show (e.1, e.2) ∈ edgeList g from he)
    exact ⟨posIdx_isSome_of_mem (hmem _ hu), posIdx_isSome_of_mem (hmem _ hv)⟩
  refine (valScan_spec (posIdx order) (edgeList g) hall).1.mpr ?_
  rintro ⟨e, he, pu, pv, hpu, hpv, hle⟩
  have hedge : Edge g e.1 e.2 :=
    (mem_edgeList_iff_edge hgnd e.1 e.2).mp
      (show (e.1, e.2) ∈ edgeList g from he)
  have hv := htgt _ _ hedge
  obtain ⟨hu, hidx⟩ := hsorted _ _ hedge hv
  have hpu2 : posIdx order e.1 = some (order.indexOf e.1) :=
    posIdx_indexOf hnd hu
  have hpv2 : posIdx order e.2 = some (order.indexOf e.2) :=
    posIdx_indexOf hnd hv
  rw [hpu2] at hpu
  rw [hpv2] at hpv
  cases hpu
  cases hpv
  omega

/-! ### BFS batching versus the Kahn loop -/

/-- Helper: successor processing only appends to the queue. -/
theorem stepSuccs_queue_ext :
    ∀ (ns : List String) (m : Indeg) (q : List String),
      ∃ ext, (stepSuccs m q ns).2 = q ++ ext := by
  intro ns
  induction ns with
  | nil => intro m q; exact ⟨[], by simp [stepSuccs]⟩
  | cons v ns ih =>
    intro m q
    rw [stepSuccs_cons]
    by_cases hz : (lookup0 (decKey m v) v == 0)
    · rw [if_pos hz]
      obtain ⟨ext, hext⟩ := ih (decKey m v) (q ++ [v])
      exact ⟨v :: ext, by rw [hext]; simp⟩
    · rw [if_neg hz]
      exact ih (decKey m v) q

/-- Helper: successor processing preserves the table keys. -/
theorem keysI_stepSuccs :
    ∀ (ns : List String) (m : Indeg) (q : List String),
      keysI (stepSuccs m q ns).1 = keysI m := by
  intro ns
  induction ns with
  | nil => intro m q; rfl
  | cons v ns ih =>
    intro m q
    rw [stepSuccs_cons]
    by_cases hz : (lookup0 (decKey m v) v == 0)
    · rw [if_pos hz, ih, keysI_decKey]
    · rw [if_neg hz, ih, keysI_decKey]

/-- Helper: one BFS batch performs exactly the corresponding pops of
the Kahn loop. -/
theorem bfsInner_kahnLoop (g : Graph) (curLevel : Int) :
    ∀ (j : Nat) (m : Indeg) (q res : List String) (lvls : LevelsT)
      (fk : Nat), j ≤ q.length →
      kahnLoop g (fk + j) m q res =
        kahnLoop g fk (bfsInner g curLevel j m q res lvls).1
          (bfsInner g curLevel j m q res lvls).2.1
          (bfsInner g curLevel j m q res lvls).2.2.1 := by
  intro j
  induction j with
  | zero => intro m q res lvls fk _; rfl
  | succ j ih =>
    intro m q res lvls fk hle
    cases q with
    | nil => simp at hle
    | cons c q =>
      have hstep : kahnLoop g (fk + (j + 1)) m (c :: q) res =
          kahnLoop g (fk + j) (stepSuccs m q (succs g c)).1
            (stepSuccs m q (succs g c)).2 (res ++ [c]) := by
        show kahnLoop g ((fk + j) + 1) m (c :: q) res = _
        rw [kahnLoop]
      rw [hstep]
      have hbfs : bfsInner g curLevel (j + 1) m (c :: q) res lvls =
          bfsInner g curLevel j (stepSuccs m q (succs g c)).1
            (stepSuccs m q (succs g c)).2 (res ++ [c])
            (setLevel lvls c curLevel) := rfl
      rw [hbfs]
      refine ih _ _ _ _ fk ?_
      obtain ⟨ext, hext⟩ := stepSuccs_queue_ext (succs g c) m q
      rw [hext, List.length_append]
      have hq : j ≤ q.length := by simpa using hle
      omega

/-- Helper: the queue-trajectory components of a BFS batch do not
depend on the result, levels or level counter being threaded. -/
theorem bfsInner_proj (g : Graph) :
    ∀ (j : Nat) (m : Indeg) (q : List String)
      (res lvls cl res2 lvls2 cl2),
      (bfsInner g cl j m q res lvls).1 =
        (bfsInner g cl2 j m q res2 lvls2).1 ∧
      (bfsInner g cl j m q res lvls).2.1 =
        (bfsInner g cl2 j m q res2 lvls2).2.1 := by
  intro j
  induction j with
  | zero => intro m q res lvls cl res2 lvls2 cl2; exact ⟨rfl, rfl⟩
  | succ j ih =>
    intro m q res lvls cl res2 lvls2 cl2
    cases q with
    | nil => exact ⟨rfl, rfl⟩
    | cons c q =>
      exact ih (stepSuccs m q (succs g c)).1 (stepSuccs m q (succs g c)).2
        (res ++ [c]) (setLevel lvls c cl) cl (res2 ++ [c])
        (setLevel lvls2 c cl2) cl2

/-- Helper: a BFS batch (j pops) lowers the loop measure by at least j. -/
theorem bfsInner_measure (g : Graph) (curLevel : Int) :
    ∀ (j : Nat) (m : Indeg) (q res : List String) (lvls : LevelsT),
      j ≤ q.length → (keysI m).Nodup →
      (∀ u v, Edge g u v → v ∈ keysI m) →
      kMeasure (bfsInner g curLevel j m q res lvls).1
          (bfsInner g curLevel j m q res lvls).2.1 + j ≤
        kMeasure m q := by
  intro j
  induction j with
  | zero => intro m q res lvls _ _ _; simp [bfsInner]
  | succ j ih =>
    intro m q res lvls hle hnd hclosed
    cases q with
    | nil => simp at hle
    | cons c q =>
      have hks : ∀ v ∈ succs g c, v ∈ keysI m := fun v hv => hclosed c v hv
      have hms := stepSuccs_measure (succs g c) m q hnd hks
      have hkeys := keysI_stepSuccs (succs g c) m q
      have hnd2 : (keysI (stepSuccs m q (succs g c)).1).Nodup := by
        rw [hkeys]; exact hnd
      have hclosed2 : ∀ u v, Edge g u v →
          v ∈ keysI (stepSuccs m q (succs g c)).1 := by
        intro u v hv
        rw [hkeys]
        exact hclosed u v hv
      obtain ⟨ext, hext⟩ := stepSuccs_queue_ext (succs g c) m q
      have hlen : j ≤ (stepSuccs m q (succs g c)).2.length := by
        rw [hext, List.length_append]
        have : j ≤ q.length := by simpa using hle
        omega
      have hih := ih (stepSuccs m q (succs g c)).1
        (stepSuccs m q (succs g c)).2 (res ++ [c])
        (setLevel lvls c curLevel) hlen hnd2 hclosed2
      have hstep : bfsInner g curLevel (j + 1) m (c :: q) res lvls =
          bfsInner g curLevel j (stepSuccs m q (succs g c)).1
            (stepSuccs m q (succs g c)).2 (res ++ [c])
            (setLevel lvls c curLevel) := rfl
      rw [hstep]
      have hm1 : kMeasure m (c :: q) = kMeasure m q + 1 := by
        rw [kMeasure, kMeasure, List.length_cons]
        omega
      omega

/-- Helper: the BFS outer loop produces exactly the Kahn loop's
dequeue sequence, for any sufficient fuels. -/
theorem bfsOuter_kahnLoop (g : Graph) :
    ∀ (fb : Nat) (m : Indeg) (q res : List String) (lvls : LevelsT)
      (cl : Int) (mx : Nat) (fk : Nat),
      kMeasure m q ≤ fb → kMeasure m q ≤ fk →
      (keysI m).Nodup → (∀ u v, Edge g u v → v ∈ keysI m) →
      (bfsOuter g fb m q res lvls cl mx).2.2.1 =
        (kahnLoop g fk m q res).2 := by
  intro fb
  induction fb with
  | zero =>
    intro m q res lvls cl mx fk hmb _ _ _
    have hq : q = [] := by
      rw [kMeasure] at hmb
      cases q with
      | nil => rfl
      | cons a q => simp at hmb
    subst hq
    cases fk with
    | zero => rfl
    | succ fk => rfl
  | succ fb ih =>
    intro m q res lvls cl mx fk hmb hmk hnd hclosed
    cases q with
    | nil =>
      cases fk with
      | zero => rfl
      | succ fk => rfl
    | cons c q =>
      have hj : (c :: q).length ≤ kMeasure m (c :: q) := by
        rw [kMeasure]
        omega
      have hfk : (c :: q).length ≤ fk := Nat.le_trans hj hmk
      have halign := bfsInner_kahnLoop g cl (c :: q).length m (c :: q)
        res lvls (fk - (c :: q).length) (Nat.le_refl _)
      rw [show fk - (c :: q).length + (c :: q).length = fk by omega]
        at halign
      have hmeasb := bfsInner_measure g cl (c :: q).length m (c :: q)
        res lvls (Nat.le_refl _) hnd hclosed
      have hkeysb : keysI (bfsInner g cl (c :: q).length m (c :: q)
          res lvls).1 = keysI m := by
        have : ∀ (j : Nat) (m2 : Indeg) (q2 res2 : List String)
            (lvls2 : LevelsT),
            keysI (bfsInner g cl j m2 q2 res2 lvls2).1 = keysI m2 := by
          intro j
          induction j with
          | zero => intro m2 q2 res2 lvls2; rfl
          | succ j ihj =>
            intro m2 q2 res2 lvls2
            cases q2 with
            | nil => rfl
            | cons c2 q2 =>
              have := ihj (stepSuccs m2 q2 (succs g c2)).1
                (stepSuccs m2 q2 (succs g c2)).2 (res2 ++ [c2])
                (setLevel lvls2 c2 cl)
              rw [show bfsInner g cl (j + 1) m2 (c2 :: q2) res2 lvls2 =
                bfsInner g cl j (stepSuccs m2 q2 (succs g c2)).1
                  (stepSuccs m2 q2 (succs g c2)).2 (res2 ++ [c2])
                  (setLevel lvls2 c2 cl) from rfl]
              rw [this, keysI_stepSuccs]
        exact this (c :: q).length m (c :: q) res lvls
      have hstep : bfsOuter g (fb + 1) m (c :: q) res lvls cl mx =
          bfsOuter g fb
            (bfsInner g cl (c :: q).length m (c :: q) res lvls).1
            (bfsInner g cl (c :: q).length m (c :: q) res lvls).2.1
            (bfsInner g cl (c :: q).length m (c :: q) res lvls).2.2.1
            (bfsInner g cl (c :: q).length m (c :: q) res lvls).2.2.2
            (cl + 1) (max mx (c :: q).length) := rfl
      rw [hstep, halign]
      refine ih _ _ _ _ (cl + 1) (max mx (c :: q).length)
        (fk - (c :: q).length) ?_ ?_ ?_ ?_
      · have hcons : (0 : Nat) < (c :: q).length := by simp
        omega
      · omega
      · rw [hkeysb]; exact hnd
      · intro u v hv
        rw [hkeysb]
        exact hclosed u v hv

/-- Helper: the fuel budget covers the initial loop measure. -/
theorem kMeasure_le_loopFuel (m : Indeg) :
    kMeasure m (seedQueue m) ≤ loopFuel m := by
  rw [kMeasure, loopFuel]
  have h1 : (seedQueue m).length ≤ m.length := by
    have := (seedQueue_sublist m).length_le
    rw [keysI, List.length_map] at this
    exact this
  have h2 : posCount m ≤ m.length := List.countP_le_length _
  omega

/-- Helper: the BFS run dequeues exactly the Kahn sequence. -/
theorem bfs_res_eq (g : Graph) (hgnd : (keysOf g).Nodup)
    (lvls0 : LevelsT) (mx0 : Nat) :
    (bfsOuter g (loopFuel (computeIndeg g)) (computeIndeg g)
      (seedQueue (computeIndeg g)) [] lvls0 0 mx0).2.2.1 =
      kahnDequeued g := by
  rw [kahnDequeued]
  refine bfsOuter_kahnLoop g (loopFuel (computeIndeg g)) (computeIndeg g)
    (seedQueue (computeIndeg g)) [] lvls0 0 mx0
    (loopFuel (computeIndeg g)) (kMeasure_le_loopFuel _)
    (kMeasure_le_loopFuel _) (nodup_keysI_computeIndeg g hgnd) ?_
  intro u v hv
  rw [mem_keysI_computeIndeg]
  exact Or.inr (mem_allSuccs_of_edge hv)

/-- Helper: Kahn's core on the success condition. -/
theorem kahnCore_eq_ok (g : Graph)
    (h : (kahnDequeued g).length = (computeIndeg g).length) :
    kahnCore g = .ok (kahnDequeued g) := by
  show (if (kahnDequeued g).length ≠ (computeIndeg g).length then _ else _) = _
  rw [if_neg (by omega)]

/-- Helper: Kahn's core on the failure condition. -/
theorem kahnCore_eq_error (g : Graph)
    (h : (kahnDequeued g).length ≠ (computeIndeg g).length) :
    kahnCore g = .error (.cycleNodes
      (((computeIndeg g).map (fun p => p.1)).filter
        (fun v => ¬ (kahnDequeued g).contains v))) := by
  show (if (kahnDequeued g).length ≠ (computeIndeg g).length then _ else _) = _
  rw [if_pos h]

/-- Helper: BFS's core on the success condition. -/
theorem bfsCore_eq_ok (g : Graph) (hgnd : (keysOf g).Nodup)
    (h : (kahnDequeued g).length = (computeIndeg g).length) :
    ∃ lvls cl mx, bfsCore g = .ok (kahnDequeued g, lvls, cl, mx) := by
  rw [bfsCore]
  rw [bfs_res_eq g hgnd _ _]
  rw [if_neg (by omega)]
  exact ⟨_, _, _, rfl⟩

/-- Helper: BFS's core on the failure condition. -/
theorem bfsCore_eq_error (g : Graph) (hgnd : (keysOf g).Nodup)
    (h : (kahnDequeued g).length ≠ (computeIndeg g).length) :
    bfsCore g = .error
      (.cycleMsg "Graph contains a cycle - topological sort impossible") := by
  rw [bfsCore]
  rw [bfs_res_eq g hgnd _ _]
  rw [if_pos h]

/-- C10: the Kahn sorter and the BFS sorter agree on every well-formed
input graph — either both raise a cycle-detected error, or both return
the very same ordered sequence of node ids: BFS's batch processing
never changes the FIFO dequeue order. -/
theorem claim_C10 (t : Int) (g : Graph) (hgnd : (keysOf g).Nodup) :
    ((∃ e, topological_sort_kahn t g = .error e) ↔
      (∃ e, topological_sort_bfs t g = .error e)) ∧
    (∀ ord mk, topological_sort_kahn t g = .ok (ord, mk) →
      ∃ lvls mb, topological_sort_bfs t g = .ok (ord, lvls, mb)) := by
  cases g with
  | nil =>
    constructor
    · constructor
      · rintro ⟨e, he⟩
        exact absurd he (by simp [topological_sort_kahn])
      · rintro ⟨e, he⟩
        exact absurd he (by simp [topological_sort_bfs])
    · intro ord mk h
      rw [topological_sort_kahn] at h
      simp only [List.isEmpty_nil, if_true] at h
      have hord : ord = [] := by
        have h2 := (Except.ok.injEq _ _).mp h.symm
        exact (congrArg Prod.fst h2)
      subst hord
      exact ⟨[], [], rfl⟩
  | cons a l =>
    by_cases hc : (kahnDequeued (a :: l)).length =
        (computeIndeg (a :: l)).length
    · obtain ⟨lvls, cl, mx, hbfs⟩ := bfsCore_eq_ok (a :: l) hgnd hc
      have hkahn := kahnCore_eq_ok (a :: l) hc
      constructor
      · constructor
        · rintro ⟨e, he⟩
          rw [topological_sort_kahn] at he
          simp only [List.isEmpty_cons, if_false, Bool.false_eq_true] at he
          rw [hkahn] at he
          exact absurd he (by simp [Except.map])
        · rintro ⟨e, he⟩
          rw [topological_sort_bfs] at he
          simp only [List.isEmpty_cons, if_false, Bool.false_eq_true] at he
          rw [hbfs] at he
          exact absurd he (by simp [Except.map])
      · intro ord mk h
        rw [topological_sort_kahn] at h
        simp only [List.isEmpty_cons, if_false, Bool.false_eq_true] at h
        rw [hkahn] at h
        simp only [Except.map, Except.ok.injEq, Prod.mk.injEq] at h
        refine ⟨lvls, mkBfsMetrics t (a :: l).length (edgeTotal (a :: l))
          (cl - 1) mx, ?_⟩
        rw [topological_sort_bfs]
        simp only [List.isEmpty_cons, if_false, Bool.false_eq_true]
        rw [hbfs]
        simp only [Except.map]
        rw [← h.1]
    · have hkahn := kahnCore_eq_error (a :: l) hc
      have hbfs := bfsCore_eq_error (a :: l) hgnd hc
      constructor
      · constructor
        · intro _
          refine ⟨.cycleMsg "Graph contains a cycle - topological sort impossible", ?_⟩
          rw [topological_sort_bfs]
          simp only [List.isEmpty_cons, if_false, Bool.false_eq_true]
          rw [hbfs]
          rfl
        · intro _
          refine ⟨.cycleNodes (((computeIndeg (a :: l)).map (fun p => p.1)).filter
            (fun v => ¬ (kahnDequeued (a :: l)).contains v)), ?_⟩
          rw [topological_sort_kahn]
          simp only [List.isEmpty_cons, if_false, Bool.false_eq_true]
          rw [hkahn]
          rfl
      · intro ord mk h
        rw [topological_sort_kahn] at h
        simp only [List.isEmpty_cons, if_false, Bool.false_eq_true] at h
        rw [hkahn] at h
        exact absurd h (by simp [Except.map])

/-- Witness for C10 at a concrete input: on the diamond graph the BFS
sorter returns exactly Kahn's order. -/
theorem claim_C10_witness :
    ∃ lvls mb, topological_sort_bfs 0 diamondGraph =
      .ok (["A", "B", "C", "D"], lvls, mb) :=
  (claim_C10 0 diamondGraph (by decide)).2 ["A", "B", "C", "D"]
    (mkBaseMetrics 0 4 4) rfl

/-! ### DFS machine: task well-formedness lemmas -/

/-- Helper: splitting a list at a cons-shaped drop. -/
theorem drop_take_succ {l : List String} {j : Nat} {a : String}
    {l2 : List String} (h : l.drop j = a :: l2) :
    l.drop (j + 1) = l2 ∧ l.take (j + 1) = l.take j ++ [a] := by
  constructor
  · have h1 : l.drop (j + 1) = (l.drop j).drop 1 := by
      rw [List.drop_drop]
    rw [h1, h]
    rfl
  · have h2 : l.take (j + 1) = l.take j ++ (l.drop j).take 1 :=
      List.take_add l j 1
    rw [h2, h]
    rfl

/-- Helper: a larger finished set preserves task well-formedness. -/
theorem TWFb_mono {g : Graph} {out out2 : List String} {ts : List Task}
    {rst : List String} {ob : Option String}
    (h : TWFb g out ts rst ob) (hsub : ∀ w ∈ out, w ∈ out2) :
    TWFb g out2 ts rst ob := by
  induction h with
  | base j ob hcons =>
    refine TWFb.base j ob ?_
    intro w hw
    rcases hcons w hw with h1 | h1
    · exact Or.inl (hsub w h1)
    · exact Or.inr h1
  | step v j ts rst ob hcons htail ih =>
    refine TWFb.step v j ts rst ob ?_ ih
    intro w hw
    rcases hcons w hw with h1 | h1
    · exact Or.inl (hsub w h1)
    · exact Or.inr h1

/-- Helper: once the open node above a layer is finished, the layer's
obligation is discharged. -/
theorem TWFb_discharge {g : Graph} {out out2 : List String}
    {ts : List Task} {rst : List String} {v : String}
    (h : TWFb g out ts rst (some v)) (hsub : ∀ w ∈ out, w ∈ out2)
    (hv : v ∈ out2) : TWFb g out2 ts rst none := by
  cases h with
  | base j ob hcons =>
    refine TWFb.base j none ?_
    intro w hw
    rcases hcons w hw with h1 | h1
    · exact Or.inl (hsub w h1)
    · cases h1
      exact Or.inl hv
  | step v2 j ts rst ob hcons htail =>
    refine TWFb.step v2 j ts rst none ?_ (TWFb_mono htail hsub)
    intro w hw
    rcases hcons w hw with h1 | h1
    · exact Or.inl (hsub w h1)
    · cases h1
      exact Or.inl hv

/-- Helper: every pending visit targets a known node. -/
theorem TWFb_targets {g : Graph} {out : List String} {ts : List Task}
    {rst : List String} {ob : Option String}
    (h : TWFb g out ts rst ob) :
    ∀ n, Task.visit n ∈ ts → n ∈ nodesOf g := by
  induction h with
  | base j ob hcons =>
    intro n hn
    rw [List.mem_map] at hn
    obtain ⟨w, hw, hwe⟩ := hn
    have : w = n := by injection hwe
    subst this
    have hmem : w ∈ keysOf g := (List.drop_subset j _) hw
    rw [nodesOf, List.mem_dedup, List.mem_append]
    exact Or.inl hmem
  | step v j ts rst ob hcons htail ih =>
    intro n hn
    rcases List.mem_append.mp hn with h1 | h1
    · rw [List.mem_map] at h1
      obtain ⟨w, hw, hwe⟩ := h1
      have : w = n := by injection hwe
      subst this
      have hmem : w ∈ succs g v := (List.drop_subset j _) hw
      rw [nodesOf, List.mem_dedup, List.mem_append]
      exact Or.inr (mem_allSuccs_of_edge hmem)
    · rcases List.mem_cons.mp h1 with h2 | h2
      · exact absurd h2 (by simp)
      · exact ih n h2

/-- Helper: no pending tasks means an empty stack and all keys
consumed. -/
theorem TWFb_empty_inv {g : Graph} {out : List String}
    {rst : List String} {ob : Option String}
    (h : TWFb g out [] rst ob) :
    rst = [] ∧ ∀ w ∈ keysOf g, w ∈ out ∨ ob = some w := by
  generalize hts : ([] : List Task) = ts0 at h
  cases h with
  | base j ob hcons =>
    have hdrop : (keysOf g).drop j = [] := by
      cases hd : (keysOf g).drop j with
      | nil => rfl
      | cons a l =>
        rw [hd] at hts
        exact absurd hts.symm (by simp)
    refine ⟨rfl, ?_⟩
    intro w hw
    refine hcons w ?_
    have hlen : (keysOf g).length ≤ j := List.drop_eq_nil_iff.mp hdrop
    rw [List.take_of_length_le hlen]
    exact hw
  | step v j ts rst ob hcons htail =>
    exfalso
    cases hd : (succs g v).drop j with
    | nil =>
      rw [hd] at hts
      exact absurd hts.symm (by simp)
    | cons a l =>
      rw [hd] at hts
      exact absurd hts.symm (by simp)

/-- Helper: consuming a pending visit of an already-finished node. -/
theorem TWFb_visit_skip {g : Graph} {out : List String} {n : String}
    {ts : List Task} {rst : List String} {ob : Option String}
    (h : TWFb g out (Task.visit n :: ts) rst ob) (hn : n ∈ out) :
    TWFb g out ts rst ob := by
  generalize hts : Task.visit n :: ts = ts0 at h
  cases h with
  | base j ob hcons =>
    cases hd : (keysOf g).drop j with
    | nil =>
      rw [hd] at hts
      exact absurd hts (by simp)
    | cons a l =>
      rw [hd, List.map_cons] at hts
      have han : a = n := by
        have h2 := (List.cons.injEq _ _ _ _).mp hts
        have h3 : n = a := by injection h2.1
        exact h3.symm
      have htseq : ts = l.map Task.visit := by
        have h2 := (List.cons.injEq _ _ _ _).mp hts
        exact h2.2
      obtain ⟨hdrop2, htake2⟩ := drop_take_succ hd
      rw [htseq, ← hdrop2]
      refine TWFb.base (j + 1) ob ?_
      intro w hw
      rw [htake2] at hw
      rcases List.mem_append.mp hw with h1 | h1
      · exact hcons w h1
      · rw [List.mem_singleton] at h1
        subst h1
        rw [han]
        exact Or.inl hn
  | step v j ts2 rst2 ob hcons htail =>
    cases hd : (succs g v).drop j with
    | nil =>
      rw [hd] at hts
      simp only [List.map_nil, List.nil_append] at hts
      exact absurd hts (by simp)
    | cons a l =>
      rw [hd, List.map_cons, List.cons_append] at hts
      have han : a = n := by
        have h2 := (List.cons.injEq _ _ _ _).mp hts
        have h3 : n = a := by injection h2.1
        exact h3.symm
      have htseq : ts = l.map Task.visit ++ Task.finish v :: ts2 := by
        have h2 := (List.cons.injEq _ _ _ _).mp hts
        exact h2.2
      obtain ⟨hdrop2, htake2⟩ := drop_take_succ hd
      rw [htseq, ← hdrop2]
      refine TWFb.step v (j + 1) ts2 rst2 ob ?_ htail
      intro w hw
      rw [htake2] at hw
      rcases List.mem_append.mp hw with h1 | h1
      · exact hcons w h1
      · rw [List.mem_singleton] at h1
        subst h1
        rw [han]
        exact Or.inl hn

/-- Helper: opening a fresh node replaces its pending visit by its
successor visits and its finish marker, pushing it on the stack. -/
theorem TWFb_visit_push {g : Graph} {out : List String} {n : String}
    {ts : List Task} {rst : List String}
    (h : TWFb g out (Task.visit n :: ts) rst none) :
    TWFb g out ((succs g n).map Task.visit ++ Task.finish n :: ts)
      (n :: rst) none := by
  generalize hts : Task.visit n :: ts = ts0 at h
  cases h with
  | base j ob hcons =>
    cases hd : (keysOf g).drop j with
    | nil =>
      rw [hd] at hts
      exact absurd hts (by simp)
    | cons a l =>
      rw [hd, List.map_cons] at hts
      have han : a = n := by
        have h2 := (List.cons.injEq _ _ _ _).mp hts
        have h3 : n = a := by injection h2.1
        exact h3.symm
      have htseq : ts = l.map Task.visit := by
        have h2 := (List.cons.injEq _ _ _ _).mp hts
        exact h2.2
      obtain ⟨hdrop2, htake2⟩ := drop_take_succ hd
      have htail : TWFb g out ts [] (some n) := by
        rw [htseq, ← hdrop2]
        refine TWFb.base (j + 1) (some n) ?_
        intro w hw
        rw [htake2] at hw
        rcases List.mem_append.mp hw with h1 | h1
        · rcases hcons w h1 with h2 | h2
          · exact Or.inl h2
          · exact absurd h2 (by simp)
        · rw [List.mem_singleton] at h1
          subst h1
          rw [han]
          exact Or.inr rfl
      have hres := TWFb.step n 0 ts [] none (by simp) htail
      simpa using hres
  | step v j ts2 rst2 ob hcons htail =>
    cases hd : (succs g v).drop j with
    | nil =>
      rw [hd] at hts
      simp only [List.map_nil, List.nil_append] at hts
      exact absurd hts (by simp)
    | cons a l =>
      rw [hd, List.map_cons, List.cons_append] at hts
      have han : a = n := by
        have h2 := (List.cons.injEq _ _ _ _).mp hts
        have h3 : n = a := by injection h2.1
        exact h3.symm
      have htseq : ts = l.map Task.visit ++ Task.finish v :: ts2 := by
        have h2 := (List.cons.injEq _ _ _ _).mp hts
        exact h2.2
      obtain ⟨hdrop2, htake2⟩ := drop_take_succ hd
      have htail2 : TWFb g out ts (v :: rst2) (some n) := by
        rw [htseq, ← hdrop2]
        refine TWFb.step v (j + 1) ts2 rst2 (some n) ?_ htail
        intro w hw
        rw [htake2] at hw
        rcases List.mem_append.mp hw with h1 | h1
        · rcases hcons w h1 with h2 | h2
          · exact Or.inl h2
          · exact absurd h2 (by simp)
        · rw [List.mem_singleton] at h1
          subst h1
          rw [han]
          exact Or.inr rfl
      have hres := TWFb.step n 0 ts (v :: rst2) none (by simp) htail2
      simpa using hres

/-- Helper: a pending visit under a nonempty stack is a successor of
the stack top. -/
theorem TWFb_visit_edge {g : Graph} {out : List String} {n : String}
    {ts : List Task} {v : String} {rst : List String} {ob : Option String}
    (h : TWFb g out (Task.visit n :: ts) (v :: rst) ob) :
    Edge g v n := by
  generalize hts : Task.visit n :: ts = ts0 at h
  generalize hrs : v :: rst = rst0 at h
  cases h with
  | base j ob hcons => exact absurd hrs (by simp)
  | step v2 j ts2 rst2 ob hcons htail =>
    have hv2 : v2 = v := by
      have h2 := (List.cons.injEq _ _ _ _).mp hrs.symm
      exact h2.1
    cases hd : (succs g v2).drop j with
    | nil =>
      rw [hd] at hts
      simp only [List.map_nil, List.nil_append] at hts
      exact absurd hts (by simp)
    | cons a l =>
      rw [hd, List.map_cons, List.cons_append] at hts
      have han : a = n := by
        have h2 := (List.cons.injEq _ _ _ _).mp hts
        have h3 : n = a := by injection h2.1
        exact h3.symm
      have hmem : a ∈ succs g v2 := (List.drop_subset j _) (by
        rw [hd]
        exact List.mem_cons_self a l)
      rw [Edge, ← hv2, ← han]
      exact hmem

/-- Helper: a pending finish marker sits exactly under its node on the
stack top, with all its successors consumed. -/
theorem TWFb_finish_inv {g : Graph} {out : List String} {n : String}
    {ts : List Task} {rst : List String} {ob : Option String}
    (h : TWFb g out (Task.finish n :: ts) rst ob) :
    ∃ rst2, rst = n :: rst2 ∧
      (∀ w ∈ succs g n, w ∈ out ∨ ob = some w) ∧
      TWFb g out ts rst2 (some n) := by
  generalize hts : Task.finish n :: ts = ts0 at h
  cases h with
  | base j ob hcons =>
    cases hd : (keysOf g).drop j with
    | nil =>
      rw [hd] at hts
      exact absurd hts (by simp)
    | cons a l =>
      rw [hd, List.map_cons] at hts
      have := (List.cons.injEq _ _ _ _).mp hts
      exact absurd this.1 (by simp)
  | step v j ts2 rst2 ob hcons htail =>
    cases hd : (succs g v).drop j with
    | nil =>
      rw [hd] at hts
      simp only [List.map_nil, List.nil_append] at hts
      have hinj := (List.cons.injEq _ _ _ _).mp hts
      have hv : v = n := by
        have h3 : n = v := by injection hinj.1
        exact h3.symm
      have hts2 : ts = ts2 := hinj.2
      subst hv
      subst hts2
      refine ⟨rst2, rfl, ?_, htail⟩
      intro w hw
      refine hcons w ?_
      have hlen : (succs g v).length ≤ j := List.drop_eq_nil_iff.mp hd
      rw [List.take_of_length_le hlen]
      exact hw
    | cons a l =>
      rw [hd, List.map_cons, List.cons_append] at hts
      have := (List.cons.injEq _ _ _ _).mp hts
      exact absurd this.1 (by simp)

/-- Helper: extending a chain by one edge from its last element. -/
theorem chain_snoc (g : Graph) :
    ∀ (l : List String) (a b x : String), List.Chain (Edge g) a l →
      (a :: l).getLast? = some x → Edge g x b →
      List.Chain (Edge g) a (l ++ [b]) := by
  intro l
  induction l with
  | nil =>
    intro a b x _ hlast he
    have hx : a = x := by
      simp only [List.getLast?_singleton, Option.some.injEq] at hlast
      exact hlast
    subst hx
    exact List.Chain.cons he List.Chain.nil
  | cons c l ih =>
    intro a b x hchain hlast he
    cases hchain with
    | cons hac hcl =>
      refine List.Chain.cons hac ?_
      refine ih c b x hcl ?_ he
      rw [← hlast, List.getLast?_cons_cons]

/-- Helper: marking one more node visited frees exactly its budget from
the unvisited sum. -/
theorem filter_sum_flip (f : String → Nat) :
    ∀ (U : List String), U.Nodup → ∀ (vis : List String) (n : String),
      n ∈ U → n ∉ vis →
      ((U.filter (fun x => ! (vis ++ [n]).contains x)).map f).sum + f n =
        ((U.filter (fun x => ! vis.contains x)).map f).sum := by
  intro U
  induction U with
  | nil => intro _ vis n hn _; exact absurd hn (List.not_mem_nil n)
  | cons u U ih =>
    intro hnd vis n hn hnv
    rw [List.nodup_cons] at hnd
    rw [List.filter_cons, List.filter_cons]
    by_cases hun : u = n
    · subst hun
      have h1 : (! (vis ++ [u]).contains u) = false := by simp
      have h2 : (! vis.contains u) = true := by simp [hnv]
      rw [h1, h2]
      simp only [Bool.false_eq_true, if_false, if_true]
      rw [List.map_cons, List.sum_cons]
      have hcong : U.filter (fun x => ! (vis ++ [u]).contains x) =
          U.filter (fun x => ! vis.contains x) := by
        refine List.filter_congr ?_
        intro x hx
        have hxu : x ≠ u := fun he => hnd.1 (he ▸ hx)
        simp [hxu]
      rw [hcong]
      omega
    · have hnu : n ∈ U := by
        rcases List.mem_cons.mp hn with h1 | h1
        · exact absurd h1.symm hun
        · exact h1
      have hagree : (! (vis ++ [n]).contains u) = (! vis.contains u) := by
        simp [hun]
      rw [hagree]
      have hih := ih hnd.2 vis n hnu hnv
      by_cases hv : (! vis.contains u) = true
      · rw [if_pos hv, if_pos hv]
        rw [List.map_cons, List.sum_cons, List.map_cons, List.sum_cons]
        omega
      · rw [if_neg hv, if_neg hv]
        exact hih

/-- Helper: skipping an already-visited node preserves the DFS
invariant. -/
theorem dfs_skip_inv {g : Graph} {n : String} {ts : List Task}
    {s : DfsSt} (hinv : DInv g (Task.visit n :: ts) s)
    (hstk : n ∉ s.stack) (hvis : n ∈ s.visited) : DInv g ts s := by
  obtain ⟨hs, htwf⟩ := hinv
  have hout : n ∈ s.out := by
    rcases (hs.2.2.1 n).mp hvis with h1 | h1
    · exact h1
    · exact absurd h1 hstk
  exact ⟨hs, TWFb_visit_skip htwf hout⟩

/-- Helper: a pending visit of a node already on the recursion stack
witnesses a cycle through that node. -/
theorem dfs_error_cycle {g : Graph} {n : String} {ts : List Task}
    {s : DfsSt} (hinv : DInv g (Task.visit n :: ts) s)
    (hstk : n ∈ s.stack) : HasCycleAt g n := by
  obtain ⟨hs, htwf⟩ := hinv
  have hchain := hs.2.2.2.2.2.1
  cases hrev : s.stack.reverse with
  | nil =>
    have : s.stack = [] := by simpa using congrArg List.reverse hrev
    rw [this] at hstk
    exact absurd hstk (List.not_mem_nil n)
  | cons v rst =>
    rw [hrev] at htwf
    have hedge : Edge g v n := TWFb_visit_edge htwf
    have hlastv : s.stack.getLast? = some v := by
      rw [← List.head?_reverse, hrev]
      rfl
    obtain ⟨pre, suf, hsplit⟩ := List.mem_iff_append.mp hstk
    have hsufc : List.Chain' (Edge g) (n :: suf) :=
      List.Chain'.suffix hchain ⟨pre, hsplit.symm⟩
    have hchain2 : List.Chain (Edge g) n suf := hsufc
    have hlast2 : (n :: suf).getLast? = some v := by
      rw [hsplit, List.getLast?_append_of_ne_nil pre (by simp)] at hlastv
      exact hlastv
    refine ⟨suf ++ [n], ?_, List.getLast?_concat _⟩
    exact chain_snoc g suf n n v hchain2 hlast2 hedge

/-- Helper: opening a fresh node preserves the DFS invariant. -/
theorem dfs_push_inv {g : Graph} {n : String} {ts : List Task}
    {s : DfsSt} (hinv : DInv g (Task.visit n :: ts) s)
    (hstk : n ∉ s.stack) (hvis : n ∉ s.visited) :
    DInv g ((succs g n).map Task.visit ++ Task.finish n :: ts)
      { s with
        visited := s.visited ++ [n], stack := s.stack ++ [n], ops := s.ops + 1, edges := s.edges + (succs g n).length } ∧
      n ∈ nodesOf g := by
  obtain ⟨⟨hand, hbnd, hciff, hdisj, hclosed, hchain, hU⟩, htwf⟩ := hinv
  have hnU : n ∈ nodesOf g :=
    TWFb_targets htwf n (List.mem_cons_self _ _)
  have hnout : n ∉ s.out := by
    intro h
    exact hvis ((hciff n).mpr (Or.inl h))
  refine ⟨⟨⟨?_, hbnd, ?_, ?_, hclosed, ?_, ?_⟩, ?_⟩, hnU⟩
  · refine List.Nodup.append hand (List.nodup_singleton n) ?_
    intro x hx hxn
    rw [List.mem_singleton] at hxn
    subst hxn
    exact hstk hx
  · intro v
    show v ∈ s.visited ++ [n] ↔ v ∈ s.out ∨ v ∈ s.stack ++ [n]
    simp only [List.mem_append, List.mem_singleton, hciff v]
    tauto
  · intro v hv
    show v ∉ s.stack ++ [n]
    rw [List.mem_append, List.mem_singleton]
    rintro (h1 | h1)
    · exact hdisj v hv h1
    · subst h1
      exact hnout hv
  · show List.Chain' (Edge g) (s.stack ++ [n])
    rw [List.chain'_append]
    refine ⟨hchain, by simp, ?_⟩
    intro x hx y hy
    simp only [List.head?_cons, Option.mem_def, Option.some.injEq] at hy
    subst hy
    cases hrev : s.stack.reverse with
    | nil =>
      have : s.stack = [] := by simpa using congrArg List.reverse hrev
      rw [this] at hx
      exact absurd hx (by simp)
    | cons v rst =>
      have hlastv : s.stack.getLast? = some v := by
        rw [← List.head?_reverse, hrev]
        rfl
      rw [Option.mem_def, hlastv] at hx
      cases hx
      rw [hrev] at htwf
      exact TWFb_visit_edge htwf
  · intro v hv
    rcases List.mem_append.mp hv with h1 | h1
    · exact hU v h1
    · rw [List.mem_singleton] at h1
      subst h1
      exact hnU
  · show TWFb g s.out
      ((succs g n).map Task.visit ++ Task.finish n :: ts)
      (s.stack ++ [n]).reverse none
    rw [List.reverse_append]
    simp only [List.reverse_cons, List.reverse_nil, List.nil_append,
      List.cons_append]
    show TWFb g s.out _ (n :: s.stack.reverse) none
    exact TWFb_visit_push htwf

/-- Helper: finishing the stack-top node preserves the DFS invariant. -/
theorem dfs_finish_inv {g : Graph} {n : String} {ts : List Task}
    {s : DfsSt} (hinv : DInv g (Task.finish n :: ts) s) :
    DInv g ts
      { s with
        stack := s.stack.erase n, out := s.out ++ [n], ops := s.ops + 1 } := by
  obtain ⟨⟨hand, hbnd, hciff, hdisj, hclosed, hchain, hU⟩, htwf⟩ := hinv
  obtain ⟨rst2, hrev, hcons, htail⟩ := TWFb_finish_inv htwf
  have hstack_eq : s.stack = rst2.reverse ++ [n] := by
    have := congrArg List.reverse hrev
    simpa using this
  have hn_stack : n ∈ s.stack := by
    rw [hstack_eq]
    simp
  have hn_not_out : n ∉ s.out := fun h => hdisj n h hn_stack
  have hn_not_rst : n ∉ rst2.reverse := by
    intro hmem
    rw [hstack_eq] at hand
    have hdj := List.disjoint_of_nodup_append hand
    exact hdj hmem (by simp)
  have herase : s.stack.erase n = rst2.reverse := by
    rw [hstack_eq, List.erase_append_right _ hn_not_rst]
    simp
  have hsuccs : ∀ w ∈ succs g n, w ∈ s.out := by
    intro w hw
    rcases hcons w hw with h1 | h1
    · exact h1
    · exact absurd h1 (by simp)
  have hsub : ∀ w ∈ s.out, w ∈ s.out ++ [n] := by
    intro w hw
    exact List.mem_append.mpr (Or.inl hw)
  refine ⟨⟨?_, ?_, ?_, ?_, ?_, ?_, ?_⟩, ?_⟩
  · show (s.stack.erase n).Nodup
    rw [herase]
    rw [hstack_eq] at hand
    exact List.Nodup.of_append_left hand
  · show (s.out ++ [n]).Nodup
    refine List.Nodup.append hbnd (List.nodup_singleton n) ?_
    intro x hx hxn
    rw [List.mem_singleton] at hxn
    subst hxn
    exact hn_not_out hx
  · intro v
    show v ∈ s.visited ↔ v ∈ s.out ++ [n] ∨ v ∈ s.stack.erase n
    rw [herase, List.mem_append, List.mem_singleton, hciff v, hstack_eq,
      List.mem_append, List.mem_singleton]
    tauto
  · intro v hv
    show v ∉ s.stack.erase n
    rw [herase]
    rcases List.mem_append.mp hv with h1 | h1
    · intro hmem
      refine hdisj v h1 ?_
      rw [hstack_eq]
      exact List.mem_append.mpr (Or.inl hmem)
    · rw [List.mem_singleton] at h1
      subst h1
      exact hn_not_rst
  · intro v hv w hw
    show w ∈ s.out ++ [n] ∧
      (s.out ++ [n]).indexOf w < (s.out ++ [n]).indexOf v
    rcases List.mem_append.mp hv with h1 | h1
    · obtain ⟨h2, h3⟩ := hclosed v h1 w hw
      refine ⟨hsub w h2, ?_⟩
      rw [List.indexOf_append_of_mem h2, List.indexOf_append_of_mem h1]
      exact h3
    · rw [List.mem_singleton] at h1
      subst h1
      have h2 := hsuccs w hw
      refine ⟨hsub w h2, ?_⟩
      rw [List.indexOf_append_of_mem h2,
        List.indexOf_append_of_not_mem hn_not_out]
      have h3 : s.out.indexOf w < s.out.length :=
        List.indexOf_lt_length.mpr h2
      have h4 : List.indexOf v [v] = 0 := List.indexOf_cons_self v []
      omega
  · show List.Chain' (Edge g) (s.stack.erase n)
    rw [herase]
    exact List.Chain'.prefix hchain ⟨[n], hstack_eq.symm⟩
  · intro v hv
    exact hU v hv
  · show TWFb g (s.out ++ [n]) ts (s.stack.erase n).reverse none
    rw [herase, List.reverse_reverse]
    exact TWFb_discharge htail hsub (by simp)

/-- Helper: the DFS measure only reads the visited set. -/
theorem dMeasure_congr (g : Graph) (tasks : List Task) (s1 s2 : DfsSt)
    (h : s1.visited = s2.visited) :
    dMeasure g tasks s1 = dMeasure g tasks s2 := by
  rw [dMeasure, dMeasure, h]

/-- Helper: the DFS machine, run with fuel above its measure from an
invariant state, either ends in a well-formed final state covering all
keys with an empty recursion stack, or raises a cycle error naming a
node that genuinely lies on a cycle. -/
theorem dfsRun_spec (g : Graph) :
    ∀ (fuel : Nat) (tasks : List Task) (s : DfsSt),
      DInv g tasks s → dMeasure g tasks s < fuel →
      (∀ s2, dfsRun g fuel tasks s = .ok s2 →
        SInv g s2 ∧ s2.stack = [] ∧ ∀ w ∈ keysOf g, w ∈ s2.out) ∧
      (∀ e, dfsRun g fuel tasks s = .error e →
        ∃ n, e = .cycleAt n ∧ HasCycleAt g n) := by
  intro fuel
  induction fuel with
  | zero =>
    intro tasks s _ hmeas
    exact absurd hmeas (by omega)
  | succ fuel ih =>
    intro tasks s hinv hmeas
    cases tasks with
    | nil =>
      constructor
      · intro s2 h
        simp only [dfsRun] at h
        have hs2 : s2 = s := by
          injection h with h2
          exact h2.symm
        subst hs2
        obtain ⟨hs, htwf⟩ := hinv
        obtain ⟨hrst, hkeys⟩ := TWFb_empty_inv htwf
        have hstack : s2.stack = [] := by
          have := congrArg List.reverse hrst
          simpa using this
        refine ⟨hs, hstack, ?_⟩
        intro w hw
        rcases hkeys w hw with h1 | h1
        · exact h1
        · exact absurd h1 (by simp)
      · intro e h
        simp only [dfsRun] at h
        exact absurd h (by simp)
    | cons t ts =>
      cases t with
      | visit n =>
        by_cases hstk : n ∈ s.stack
        · have hrun : dfsRun g (fuel + 1) (Task.visit n :: ts) s =
              .error (.cycleAt n) := by
            rw [dfsRun, if_pos hstk]
          constructor
          · intro s2 h
            rw [hrun] at h
            exact absurd h (by simp)
          · intro e h
            rw [hrun] at h
            have he : SortError.cycleAt n = e := by injection h
            exact ⟨n, he.symm, dfs_error_cycle hinv hstk⟩
        · by_cases hvis : n ∈ s.visited
          · have hrun : dfsRun g (fuel + 1) (Task.visit n :: ts) s =
                dfsRun g fuel ts s := by
              rw [dfsRun, if_neg hstk, if_pos hvis]
            have hinv2 := dfs_skip_inv hinv hstk hvis
            have hmeas2 : dMeasure g ts s < fuel := by
              rw [dMeasure] at hmeas ⊢
              rw [List.length_cons] at hmeas
              omega
            rw [hrun]
            exact ih ts s hinv2 hmeas2
          · have hrun : dfsRun g (fuel + 1) (Task.visit n :: ts) s =
                dfsRun g fuel
                  ((succs g n).map Task.visit ++ Task.finish n :: ts)
                  { s with
                    visited := s.visited ++ [n], stack := s.stack ++ [n], ops := s.ops + 1, edges := s.edges + (succs g n).length } := by
              rw [dfsRun, if_neg hstk, if_neg hvis]
            obtain ⟨hinv2, hnU⟩ := dfs_push_inv hinv hstk hvis
            have hflip := filter_sum_flip (fun x => (succs g x).length + 2)
              (nodesOf g) (List.nodup_dedup _) s.visited n hnU hvis
            have hd : (fun x => (succs g x).length + 2) n =
                (succs g n).length + 2 := rfl
            rw [hd] at hflip
            have hmeas2 : dMeasure g
                ((succs g n).map Task.visit ++ Task.finish n :: ts)
                { s with
                  visited := s.visited ++ [n], stack := s.stack ++ [n], ops := s.ops + 1, edges := s.edges + (succs g n).length } < fuel := by
              rw [dMeasure] at hmeas ⊢
              rw [List.length_cons] at hmeas
              rw [List.length_append, List.length_map, List.length_cons]
              have hv : ({ s with
                visited := s.visited ++ [n], stack := s.stack ++ [n], ops := s.ops + 1, edges := s.edges + (succs g n).length } : DfsSt).visited = s.visited ++ [n] := rfl
              rw [hv]
              omega
            rw [hrun]
            exact ih _ _ hinv2 hmeas2
      | finish n =>
        have hrun : dfsRun g (fuel + 1) (Task.finish n :: ts) s =
            dfsRun g fuel ts
              { s with
                stack := s.stack.erase n, out := s.out ++ [n], ops := s.ops + 1 } := by
          rw [dfsRun]
        have hinv2 := dfs_finish_inv hinv
        have hmeas2 : dMeasure g ts
            { s with
              stack := s.stack.erase n, out := s.out ++ [n], ops := s.ops + 1 } < fuel := by
          rw [dMeasure_congr g ts
            { s with
              stack := s.stack.erase n, out := s.out ++ [n], ops := s.ops + 1 } s rfl]
          rw [dMeasure] at hmeas ⊢
          rw [List.length_cons] at hmeas
          omega
        rw [hrun]
        exact ih _ _ hinv2 hmeas2

/-- Helper: summing the constant two over a list. -/
theorem sum_map_two (l : List String) :
    (l.map (fun _ => (2 : Nat))).sum = 2 * l.length := by
  induction l with
  | nil => rfl
  | cons a l ih =>
    rw [List.map_cons, List.sum_cons, ih, List.length_cons]
    omega

/-- Helper: the initial DFS task list and state satisfy the machine
invariant. -/
theorem dfs_init_inv (g : Graph) :
    DInv g (g.map (fun p => Task.visit p.1)) dfsInit := by
  constructor
  · refine ⟨?_, ?_, ?_, ?_, ?_, ?_, ?_⟩ <;> simp [dfsInit]
  · have h0 : TWFb g ([] : List String)
        (((keysOf g).drop 0).map Task.visit) [] none :=
      TWFb.base 0 none (by simp)
    have he : ((keysOf g).drop 0).map Task.visit =
        g.map (fun p => Task.visit p.1) := by
      rw [List.drop_zero, keysOf, List.map_map]
      rfl
    rw [he] at h0
    exact h0

/-- Helper: the DFS fuel budget strictly exceeds the initial measure. -/
theorem dfs_init_meas (g : Graph) :
    dMeasure g (g.map (fun p => Task.visit p.1)) dfsInit < dfsFuel g := by
  rw [dMeasure, dfsFuel]
  have hfilter : (nodesOf g).filter
      (fun n => ! (dfsInit.visited).contains n) = nodesOf g := by
    apply List.filter_eq_self.mpr
    intro a _
    rfl
  rw [hfilter, List.length_map]
  have hsplit : ((nodesOf g).map (fun n => (succs g n).length + 2)).sum =
      ((nodesOf g).map (fun n => (succs g n).length)).sum +
      ((nodesOf g).map (fun _ => 2)).sum := sum_map_add_nat _ _ _
  rw [hsplit, sum_map_two]
  omega

/-- Helper: the DFS core either returns a well-formed final state whose
output covers every key with the recursion stack empty, or raises a
cycle error naming a node on a real cycle. -/
theorem dfsCore_spec (g : Graph) :
    (∀ s2, dfsCore g = .ok s2 →
      SInv g s2 ∧ s2.stack = [] ∧ ∀ w ∈ keysOf g, w ∈ s2.out) ∧
    (∀ e, dfsCore g = .error e → ∃ n, e = .cycleAt n ∧ HasCycleAt g n) := by
  have h := dfsRun_spec g (dfsFuel g) (g.map (fun p => Task.visit p.1))
    dfsInit (dfs_init_inv g) (dfs_init_meas g)
  exact h

/-- Helper: on an acyclic graph the DFS core succeeds. -/
theorem dfsCore_acyclic_ok (g : Graph) (hacy : Acyclic g) :
    ∃ s2, dfsCore g = .ok s2 := by
  cases h : dfsCore g with
  | ok s2 => exact ⟨s2, rfl⟩
  | error e =>
    obtain ⟨n, _, hcyc⟩ := (dfsCore_spec g).2 e h
    exact absurd ⟨n, hcyc⟩ hacy

/-- Helper: each entry of a successor list comes from some row of the
graph. -/
theorem exists_entry_of_mem_succs {g : Graph} {u v : String}
    (h : v ∈ succs g u) : ∃ l, (u, l) ∈ g ∧ v ∈ l := by
  induction g with
  | nil => rw [succs] at h; exact absurd h (List.not_mem_nil v)
  | cons p g ih =>
    rw [succs] at h
    by_cases hp : p.1 == u
    · rw [if_pos hp] at h
      have hu : p.1 = u := by simpa using hp
      refine ⟨p.2, ?_, h⟩
      rw [← hu]
      exact List.mem_cons_self p g
    · rw [if_neg hp] at h
      obtain ⟨l, hl, hv⟩ := ih h
      exact ⟨l, List.mem_cons_of_mem p hl, hv⟩

/-- Helper: with unique keys, every flattened successor is the target of
an actual edge. -/
theorem exists_edge_of_mem_allSuccs {g : Graph}
    (hgnd : (keysOf g).Nodup) {v : String} (h : v ∈ allSuccs g) :
    ∃ u, u ∈ keysOf g ∧ Edge g u v := by
  rw [allSuccs] at h
  rw [List.mem_flatten] at h
  obtain ⟨row, hrow, hv⟩ := h
  rw [List.mem_map] at hrow
  obtain ⟨p, hp, hrow⟩ := hrow
  subst hrow
  have hel : (p.1, v) ∈ edgeList g := by
    rw [edgeList, List.mem_flatten]
    refine ⟨p.2.map (fun w => (p.1, w)), ?_, ?_⟩
    · exact List.mem_map.mpr ⟨p, hp, rfl⟩
    · exact List.mem_map.mpr ⟨v, hv, rfl⟩
  have hedge : Edge g p.1 v := (mem_edgeList_iff_edge hgnd p.1 v).mp hel
  exact ⟨p.1, mem_keys_of_edge hedge, hedge⟩

/-- Helper: a strictly edge-increasing rank function certifies
acyclicity. -/
theorem acyclic_of_rank (g : Graph) (r : String → Nat)
    (h : ∀ p ∈ g, ∀ v ∈ p.2, r p.1 < r v) : Acyclic g := by
  have hedge : ∀ u v, Edge g u v → r u < r v := by
    intro u v huv
    obtain ⟨l, hl, hv⟩ := exists_entry_of_mem_succs huv
    exact h (u, l) hl v hv
  rintro ⟨v, l, hch, hlast⟩
  have hmono : ∀ (l2 : List String) (w : String),
      List.Chain (Edge g) w l2 → ∀ x ∈ l2, r w < r x := by
    intro l2
    induction l2 with
    | nil => intro w _ x hx; exact absurd hx (List.not_mem_nil x)
    | cons a l3 ih =>
      intro w hch2 x hx
      cases hch2 with
      | cons ha htail =>
        rcases List.mem_cons.mp hx with h1 | h1
        · subst h1; exact hedge w x ha
        · exact Nat.lt_trans (hedge w a ha) (ih a htail x h1)
  have hvl : v ∈ l := by
    obtain ⟨hne, hx⟩ :=
      List.mem_getLast?_eq_getLast (show v ∈ l.getLast? from hlast)
    rw [hx]
    exact List.getLast_mem hne
  exact absurd (hmono l v hch v hvl) (Nat.lt_irrefl _)

set_option linter.deprecated false in
/-- Helper: a duplicate-free list's reversal indexes an element at the
mirrored position. -/
theorem reverse_indexOf {l : List String} (hnd : l.Nodup) {x : String}
    (hx : x ∈ l) :
    l.reverse.indexOf x = l.length - 1 - l.indexOf x := by
  have hi : l.indexOf x < l.length := List.indexOf_lt_length.mpr hx
  have h1 : l.length - 1 - l.indexOf x < l.reverse.length := by
    rw [List.length_reverse]; omega
  have hget : l.reverse.get ⟨l.length - 1 - l.indexOf x, h1⟩ =
      l.get ⟨l.indexOf x, hi⟩ := List.get_reverse l (l.indexOf x) h1 hi
  have hx2 : l.reverse.get ⟨l.length - 1 - l.indexOf x, h1⟩ = x := by
    rw [hget]
    exact List.indexOf_get hi
  have hndr : l.reverse.Nodup := List.nodup_reverse.mpr hnd
  have h2 := List.indexOf_getElem hndr (l.length - 1 - l.indexOf x) h1
  have hx3 : l.reverse[l.length - 1 - l.indexOf x] = x := hx2
  rw [hx3] at h2
  exact h2

/-- Helper: reversal flips strict index order in a duplicate-free
list. -/
theorem reverse_indexOf_lt {l : List String} (hnd : l.Nodup) {x y : String}
    (hx : x ∈ l) (hy : y ∈ l) (h : l.indexOf x < l.indexOf y) :
    l.reverse.indexOf y < l.reverse.indexOf x := by
  rw [reverse_indexOf hnd hx, reverse_indexOf hnd hy]
  have hiy : l.indexOf y < l.length := List.indexOf_lt_length.mpr hy
  omega

/-- Helper: a successful DFS core's output lists exactly the node
universe, with every edge target finished before its source. -/
theorem dfsCore_ok_out (g : Graph) (hgnd : (keysOf g).Nodup) (s2 : DfsSt)
    (hok : dfsCore g = .ok s2) :
    s2.out.Nodup ∧ (∀ v, v ∈ s2.out ↔ v ∈ nodesOf g) ∧
    (∀ u v, Edge g u v →
      u ∈ s2.out ∧ v ∈ s2.out ∧ s2.out.indexOf v < s2.out.indexOf u) := by
  obtain ⟨⟨hstnd, houtnd, hvis, hdisj, hclosed, hchain, hnodes⟩, hstack,
    hkeys⟩ := (dfsCore_spec g).1 s2 hok
  have hkey_out : ∀ w ∈ keysOf g, w ∈ s2.out := hkeys
  refine ⟨houtnd, ?_, ?_⟩
  · intro v
    constructor
    · intro hv
      exact hnodes v ((hvis v).mpr (Or.inl hv))
    · intro hv
      rw [nodesOf, List.mem_dedup, List.mem_append] at hv
      rcases hv with hv | hv
      · exact hkey_out v hv
      · obtain ⟨u, hu, hedge⟩ := exists_edge_of_mem_allSuccs hgnd hv
        exact (hclosed u (hkey_out u hu) v hedge).1
  · intro u v hedge
    have hu : u ∈ s2.out := hkey_out u (mem_keys_of_edge hedge)
    obtain ⟨hv, hlt⟩ := hclosed u hu v hedge
    exact ⟨hu, hv, hlt⟩

/-- Helper: the reversed DFS output of a successful run passes the
validator. -/
theorem dfs_order_valid (g : Graph) (hgnd : (keysOf g).Nodup)
    (hne : g ≠ []) (s2 : DfsSt) (hok : dfsCore g = .ok s2) :
    validate_topological_order g s2.out.reverse =
      .ok (true, "Valid topological order") := by
  obtain ⟨hnd, hmem, hedge⟩ := dfsCore_ok_out g hgnd s2 hok
  have hkey_mem : ∀ w ∈ keysOf g, w ∈ s2.out := by
    intro w hw
    refine (hmem w).mpr ?_
    rw [nodesOf, List.mem_dedup, List.mem_append]
    exact Or.inl hw
  refine validate_accepts g hgnd s2.out.reverse
    (List.nodup_reverse.mpr hnd) ?_ ?_ ?_ ?_
  · obtain ⟨p, g2, hg⟩ := List.exists_cons_of_ne_nil hne
    have hp : p.1 ∈ keysOf g := by rw [hg, keysOf]; simp
    have : p.1 ∈ s2.out.reverse := List.mem_reverse.mpr (hkey_mem p.1 hp)
    exact List.ne_nil_of_mem this
  · intro x hxr
    rw [mem_refIds_iff] at hxr
    refine List.mem_reverse.mpr ((hmem x).mpr ?_)
    rw [nodesOf, List.mem_dedup, List.mem_append]
    exact hxr
  · intro u v he
    exact List.mem_reverse.mpr (hedge u v he).2.1
  · intro u v he _
    obtain ⟨hu, hv, hlt⟩ := hedge u v he
    refine ⟨List.mem_reverse.mpr hu, ?_⟩
    exact reverse_indexOf_lt hnd hv hu hlt

/-- Helper: on an acyclic graph the Kahn loop dequeues a permutation of
the in-degree table's keys, so the cycle check passes. -/
theorem kahn_acyclic_len (g : Graph) (hgnd : (keysOf g).Nodup)
    (hacy : Acyclic g) :
    (kahnDequeued g).length = (computeIndeg g).length := by
  obtain ⟨hnd, hsub, _, hcompl⟩ := kahnDequeued_spec g hgnd
  have hperm : List.Perm (kahnDequeued g) (keysI (computeIndeg g)) :=
    (List.perm_ext_iff_of_nodup hnd (nodup_keysI_computeIndeg g hgnd)).mpr
      (fun v => ⟨fun h => hsub v h, fun h => hcompl hacy v h⟩)
  have := hperm.length_eq
  rw [keysI, List.length_map] at this
  exact this

/-- Helper: on a non-empty acyclic graph the Kahn dequeue order passes
the validator. -/
theorem kahn_order_valid (g : Graph) (hgnd : (keysOf g).Nodup)
    (hne : g ≠ []) (hacy : Acyclic g) :
    validate_topological_order g (kahnDequeued g) =
      .ok (true, "Valid topological order") := by
  obtain ⟨hnd, hsub, hsorted, hcompl⟩ := kahnDequeued_spec g hgnd
  have hkeys : ∀ w ∈ keysOf g, w ∈ kahnDequeued g := by
    intro w hw
    refine hcompl hacy w ?_
    rw [mem_keysI_computeIndeg]
    exact Or.inl hw
  refine validate_accepts g hgnd (kahnDequeued g) hnd ?_ ?_ ?_ hsorted
  · obtain ⟨p, g2, hg⟩ := List.exists_cons_of_ne_nil hne
    have hp : p.1 ∈ keysOf g := by rw [hg, keysOf]; simp
    exact List.ne_nil_of_mem (hkeys p.1 hp)
  · intro x hxr
    rw [mem_refIds_iff] at hxr
    refine hcompl hacy x ?_
    rw [mem_keysI_computeIndeg]
    exact hxr
  · intro u v he
    refine hcompl hacy v ?_
    rw [mem_keysI_computeIndeg]
    exact Or.inr (mem_allSuccs_of_edge he)

/-- C1: on every well-formed acyclic graph each of the three sorters
returns an order, and the validator marks that order valid (on the
empty graph with its dedicated empty-order message, otherwise with the
standard acceptance message). -/
theorem claim_C1 (t : Int) (g : Graph) (hgnd : (keysOf g).Nodup)
    (hacy : Acyclic g) :
    (∃ res m msg, topological_sort_kahn t g = .ok (res, m) ∧
      validate_topological_order g res = .ok (true, msg)) ∧
    (∃ res lvls m msg, topological_sort_bfs t g = .ok (res, lvls, m) ∧
      validate_topological_order g res = .ok (true, msg)) ∧
    (∃ res m msg, topological_sort_dfs t g = .ok (res, m) ∧
      validate_topological_order g res = .ok (true, msg)) := by
  cases g with
  | nil =>
    refine ⟨⟨[], kahnEmptyMetrics, "Empty order is valid for empty graph",
        rfl, rfl⟩,
      ⟨[], [], [], "Empty order is valid for empty graph", rfl, rfl⟩,
      ⟨[], dfsEmptyMetrics, "Empty order is valid for empty graph",
        rfl, rfl⟩⟩
  | cons p g2 =>
    have hne : p :: g2 ≠ ([] : Graph) := by simp
    have hlen := kahn_acyclic_len (p :: g2) hgnd hacy
    have hval := kahn_order_valid (p :: g2) hgnd hne hacy
    refine ⟨?_, ?_, ?_⟩
    · refine ⟨kahnDequeued (p :: g2),
        mkBaseMetrics t (p :: g2).length (edgeTotal (p :: g2)),
        "Valid topological order", ?_, hval⟩
      rw [topological_sort_kahn]
      rw [if_neg (by simp)]
      rw [kahnCore_eq_ok _ hlen]
      rfl
    · obtain ⟨lvls, cl, mx, hbfs⟩ := bfsCore_eq_ok (p :: g2) hgnd hlen
      refine ⟨kahnDequeued (p :: g2), lvls,
        mkBfsMetrics t (p :: g2).length (edgeTotal (p :: g2)) (cl - 1) mx,
        "Valid topological order", ?_, hval⟩
      rw [topological_sort_bfs]
      rw [if_neg (by simp)]
      rw [hbfs]
      rfl
    · obtain ⟨s2, hdfs⟩ := dfsCore_acyclic_ok (p :: g2) hacy
      refine ⟨s2.out.reverse,
        [("execution_time_ms", t), ("vertices", ((p :: g2).length : Int)),
         ("edges", (s2.edges : Int)),
         ("theoretical_operations", ((p :: g2).length + s2.edges : Int)),
         ("actual_operations", (s2.ops : Int)),
         ("space_complexity", ((p :: g2).length : Int)),
         ("recursion_depth", (s2.stack.length : Int))],
        "Valid topological order", ?_,
        dfs_order_valid (p :: g2) hgnd hne s2 hdfs⟩
      rw [topological_sort_dfs]
      rw [if_neg (by simp)]
      rw [hdfs]
      rfl

/-- Witness for C1 at a concrete input: the diamond graph is acyclic
with duplicate-free keys, and all three sorters produce
validator-approved orders on it. -/
theorem claim_C1_witness :
    (keysOf diamondGraph).Nodup ∧ Acyclic diamondGraph ∧
    ((∃ res m msg, topological_sort_kahn 0 diamondGraph = .ok (res, m) ∧
        validate_topological_order diamondGraph res = .ok (true, msg)) ∧
      (∃ res lvls m msg,
        topological_sort_bfs 0 diamondGraph = .ok (res, lvls, m) ∧
        validate_topological_order diamondGraph res = .ok (true, msg)) ∧
      (∃ res m msg, topological_sort_dfs 0 diamondGraph = .ok (res, m) ∧
        validate_topological_order diamondGraph res = .ok (true, msg))) := by
  have hacy : Acyclic diamondGraph :=
    acyclic_of_rank diamondGraph
      (fun s => if s = "A" then 0 else if s = "D" then 2 else 1)
      (by decide)
  exact ⟨by decide, hacy, claim_C1 0 diamondGraph (by decide) hacy⟩

/-- C2 (amended): whenever a sorter succeeds, the length of the
returned order equals the number of distinct node ids appearing as keys
*or as successors* of the graph — not merely the keys, since
successor-only ids are sorted too. -/
theorem claim_C2_amended (t : Int) (g : Graph) (hgnd : (keysOf g).Nodup) :
    (∀ res m, topological_sort_kahn t g = .ok (res, m) →
      res.length = distinctNodeCount g) ∧
    (∀ res lvls m, topological_sort_bfs t g = .ok (res, lvls, m) →
      res.length = distinctNodeCount g) ∧
    (∀ res m, topological_sort_dfs t g = .ok (res, m) →
      res.length = distinctNodeCount g) := by
  cases g with
  | nil =>
    refine ⟨?_, ?_, ?_⟩
    · intro res m hok
      injection hok with h2
      injection h2 with hr hm
      rw [← hr]
      rfl
    · intro res lvls m hok
      injection hok with h2
      injection h2 with hr hm
      rw [← hr]
      rfl
    · intro res m hok
      injection hok with h2
      injection h2 with hr hm
      rw [← hr]
      rfl
  | cons p g2 =>
    refine ⟨?_, ?_, ?_⟩
    · intro res m hok
      rw [topological_sort_kahn] at hok
      rw [if_neg (by simp)] at hok
      by_cases hlen : (kahnDequeued (p :: g2)).length =
          (computeIndeg (p :: g2)).length
      · rw [kahnCore_eq_ok _ hlen] at hok
        simp only [Except.map, Except.ok.injEq, Prod.mk.injEq] at hok
        obtain ⟨hr, _⟩ := hok
        rw [← hr, hlen]
        exact length_computeIndeg _ hgnd
      · rw [kahnCore_eq_error _ hlen] at hok
        injection hok
    · intro res lvls m hok
      rw [topological_sort_bfs] at hok
      rw [if_neg (by simp)] at hok
      by_cases hlen : (kahnDequeued (p :: g2)).length =
          (computeIndeg (p :: g2)).length
      · obtain ⟨lvls2, cl2, mx2, hb⟩ := bfsCore_eq_ok (p :: g2) hgnd hlen
        rw [hb] at hok
        simp only [Except.map, Except.ok.injEq, Prod.mk.injEq] at hok
        obtain ⟨hr, _⟩ := hok
        rw [← hr, hlen]
        exact length_computeIndeg _ hgnd
      · rw [bfsCore_eq_error (p :: g2) hgnd hlen] at hok
        injection hok
    · intro res m hok
      rw [topological_sort_dfs] at hok
      rw [if_neg (by simp)] at hok
      cases hc : dfsCore (p :: g2) with
      | error e => rw [hc] at hok; injection hok
      | ok s2 =>
        rw [hc] at hok
        simp only [Except.map, Except.ok.injEq, Prod.mk.injEq] at hok
        obtain ⟨hr, _⟩ := hok
        obtain ⟨hnd, hmem, _⟩ := dfsCore_ok_out (p :: g2) hgnd s2 hc
        have hnodes_nd : (nodesOf (p :: g2)).Nodup := by
          rw [nodesOf]
          exact List.nodup_dedup _
        have hperm : List.Perm s2.out (nodesOf (p :: g2)) :=
          (List.perm_ext_iff_of_nodup hnd hnodes_nd).mpr hmem
        rw [← hr, List.length_reverse, distinctNodeCount]
        exact hperm.length_eq

/-- Witness for the amended C2 at a concrete input: on `{A: [B]}` the
Kahn sorter's order has length two, the number of distinct referenced
ids. -/
theorem claim_C2_witness :
    (keysOf [("A", ["B"])]).Nodup ∧
    (["A", "B"] : List String).length = distinctNodeCount [("A", ["B"])] :=
  ⟨by decide, (claim_C2_amended 0 [("A", ["B"])] (by decide)).1 ["A", "B"]
    (mkBaseMetrics 0 1 1) (by rfl)⟩

/-- C3 (amended): on a detected cycle, the Kahn sorter's error carries
the non-empty list of table keys that were never dequeued (and a cycle
genuinely exists); the DFS sorter's error names a node of the active
recursion path, which genuinely lies on a cycle; but the BFS sorter's
error carries only a fixed message with no node data. -/
theorem claim_C3_amended (t : Int) (g : Graph) (hgnd : (keysOf g).Nodup) :
    (∀ e, topological_sort_kahn t g = .error e →
      ∃ r, e = .cycleNodes r ∧ r ≠ [] ∧
        (∀ v, v ∈ r ↔ (v ∈ keysI (computeIndeg g) ∧
          v ∉ kahnDequeued g)) ∧ HasCycle g) ∧
    (∀ e, topological_sort_bfs t g = .error e →
      e = .cycleMsg "Graph contains a cycle - topological sort impossible" ∧
      HasCycle g) ∧
    (∀ e, topological_sort_dfs t g = .error e →
      ∃ n, e = .cycleAt n ∧ HasCycleAt g n) := by
  cases g with
  | nil =>
    refine ⟨?_, ?_, ?_⟩ <;> intro e hok <;> injection hok
  | cons p g2 =>
    refine ⟨?_, ?_, ?_⟩
    · intro e hok
      rw [topological_sort_kahn] at hok
      rw [if_neg (by simp)] at hok
      by_cases hlen : (kahnDequeued (p :: g2)).length =
          (computeIndeg (p :: g2)).length
      · rw [kahnCore_eq_ok _ hlen] at hok
        injection hok
      · rw [kahnCore_eq_error _ hlen] at hok
        simp only [Except.map] at hok
        have he : SortError.cycleNodes
            (((computeIndeg (p :: g2)).map (fun q => q.1)).filter
              (fun v => ¬ (kahnDequeued (p :: g2)).contains v)) = e := by
          injection hok
        have hiff : ∀ v,
            v ∈ ((computeIndeg (p :: g2)).map (fun q => q.1)).filter
              (fun v => ¬ (kahnDequeued (p :: g2)).contains v) ↔
            (v ∈ keysI (computeIndeg (p :: g2)) ∧
              v ∉ kahnDequeued (p :: g2)) := by
          intro v
          rw [List.mem_filter, keysI]
          simp
        have hcyc : HasCycle (p :: g2) := by
          by_contra hnc
          exact hlen (kahn_acyclic_len _ hgnd hnc)
        refine ⟨_, he.symm, ?_, hiff, hcyc⟩
        intro hemp
        apply hlen
        have hall : ∀ v ∈ keysI (computeIndeg (p :: g2)),
            v ∈ kahnDequeued (p :: g2) := by
          intro v hv
          by_contra hnv
          have hvin := (hiff v).mpr ⟨hv, hnv⟩
          rw [hemp] at hvin
          exact absurd hvin (List.not_mem_nil v)
        obtain ⟨hnd, hsub, _, _⟩ := kahnDequeued_spec _ hgnd
        have hperm : List.Perm (kahnDequeued (p :: g2))
            (keysI (computeIndeg (p :: g2))) :=
          (List.perm_ext_iff_of_nodup hnd
            (nodup_keysI_computeIndeg _ hgnd)).mpr
            (fun v => ⟨fun h => hsub v h, fun h => hall v h⟩)
        have hl2 := hperm.length_eq
        rw [keysI, List.length_map] at hl2
        exact hl2
    · intro e hok
      rw [topological_sort_bfs] at hok
      rw [if_neg (by simp)] at hok
      by_cases hlen : (kahnDequeued (p :: g2)).length =
          (computeIndeg (p :: g2)).length
      · obtain ⟨lvls2, cl2, mx2, hb⟩ := bfsCore_eq_ok (p :: g2) hgnd hlen
        rw [hb] at hok
        injection hok
      · rw [bfsCore_eq_error (p :: g2) hgnd hlen] at hok
        simp only [Except.map] at hok
        have he : SortError.cycleMsg
            "Graph contains a cycle - topological sort impossible" = e := by
          injection hok
        refine ⟨he.symm, ?_⟩
        by_contra hnc
        exact hlen (kahn_acyclic_len _ hgnd hnc)
    · intro e hok
      rw [topological_sort_dfs] at hok
      rw [if_neg (by simp)] at hok
      cases hc : dfsCore (p :: g2) with
      | ok s2 => rw [hc] at hok; injection hok
      | error e2 =>
        rw [hc] at hok
        simp only [Except.map] at hok
        have he : e2 = e := by injection hok
        obtain ⟨n, hn, hcy⟩ := (dfsCore_spec _).2 e2 hc
        exact ⟨n, he ▸ hn, hcy⟩

/-- Witness for the amended C3 at a concrete input: on the 3-cycle the
Kahn sorter raises an error listing exactly the never-dequeued keys
`A`, `B`, `C`. -/
theorem claim_C3_witness :
    (keysOf cycleGraph3).Nodup ∧
    (∃ r, SortError.cycleNodes ["A", "B", "C"] = .cycleNodes r ∧ r ≠ [] ∧
      (∀ v, v ∈ r ↔ (v ∈ keysI (computeIndeg cycleGraph3) ∧
        v ∉ kahnDequeued cycleGraph3)) ∧ HasCycle cycleGraph3) :=
  ⟨by decide, (claim_C3_amended 0 cycleGraph3 (by decide)).1
    (SortError.cycleNodes ["A", "B", "C"]) (by rfl)⟩

/-- Helper: reading back the level just written. -/
theorem levelOf_setLevel_self (l : LevelsT) (v : String) (k : Int) :
    levelOf (setLevel l v k) v = some k := by
  induction l with
  | nil => simp [setLevel, levelOf]
  | cons p l ih =>
    rw [setLevel]
    by_cases hp : p.1 == v
    · rw [if_pos hp, levelOf, if_pos hp]
    · rw [if_neg hp, levelOf, if_neg hp]
      exact ih

/-- Helper: writing one level leaves other keys' reads unchanged. -/
theorem levelOf_setLevel_other (l : LevelsT) (v w : String) (k : Int)
    (h : w ≠ v) :
    levelOf (setLevel l v k) w = levelOf l w := by
  induction l with
  | nil =>
    rw [setLevel, levelOf, levelOf]
    rw [if_neg (by simp; exact fun he => h he.symm)]
    rfl
  | cons p l ih =>
    rw [setLevel]
    by_cases hp : p.1 == v
    · have hp2 : p.1 = v := by simpa using hp
      rw [if_pos hp, levelOf, levelOf]
      rw [if_neg (by simp [hp2]; exact fun he => h he.symm)]
      rw [if_neg (by simp [hp2]; exact fun he => h he.symm)]
    · rw [if_neg hp, levelOf, levelOf]
      by_cases hpw : p.1 == w
      · rw [if_pos hpw, if_pos hpw]
      · rw [if_neg hpw, if_neg hpw]
        exact ih

/-- Helper: a BFS batch writes the current level for exactly the nodes
it pops and leaves every other level read unchanged. -/
theorem bfsInner_levels (g : Graph) (curLevel : Int) :
    ∀ (j : Nat) (m : Indeg) (q res : List String) (lvls : LevelsT),
      j ≤ q.length →
      (∀ w ∈ q.take j,
        levelOf (bfsInner g curLevel j m q res lvls).2.2.2 w =
          some curLevel) ∧
      (∀ w, w ∉ q.take j →
        levelOf (bfsInner g curLevel j m q res lvls).2.2.2 w =
          levelOf lvls w) := by
  intro j
  induction j with
  | zero =>
    intro m q res lvls _
    constructor
    · intro w hw
      simp at hw
    · intro w _
      rfl
  | succ j ih =>
    intro m q res lvls hle
    cases q with
    | nil => simp at hle
    | cons c q2 =>
      have hstep : bfsInner g curLevel (j + 1) m (c :: q2) res lvls =
          bfsInner g curLevel j (stepSuccs m q2 (succs g c)).1
            (stepSuccs m q2 (succs g c)).2 (res ++ [c])
            (setLevel lvls c curLevel) := rfl
      obtain ⟨ext, hext⟩ := stepSuccs_queue_ext (succs g c) m q2
      have hq2 : j ≤ q2.length := by simpa using hle
      have hlen : j ≤ (stepSuccs m q2 (succs g c)).2.length := by
        rw [hext, List.length_append]
        omega
      have htake : (stepSuccs m q2 (succs g c)).2.take j = q2.take j := by
        rw [hext, List.take_append_eq_append_take]
        have hz : j - q2.length = 0 := by omega
        rw [hz]
        simp
      obtain ⟨ih1, ih2⟩ := ih (stepSuccs m q2 (succs g c)).1
        (stepSuccs m q2 (succs g c)).2 (res ++ [c])
        (setLevel lvls c curLevel) hlen
      rw [hstep]
      constructor
      · intro w hw
        rw [List.take_succ_cons] at hw
        rcases List.mem_cons.mp hw with hw1 | hw1
        · subst hw1
          by_cases hc : w ∈ q2.take j
          · exact ih1 w (by rw [htake]; exact hc)
          · rw [ih2 w (by rw [htake]; exact hc)]
            exact levelOf_setLevel_self lvls w curLevel
        · exact ih1 w (by rw [htake]; exact hw1)
      · intro w hw
        rw [List.take_succ_cons] at hw
        simp only [List.mem_cons, not_or] at hw
        obtain ⟨hwc, hwq⟩ := hw
        rw [ih2 w (by rw [htake]; exact hwq)]
        exact levelOf_setLevel_other lvls c w curLevel hwc

/-- Helper: a BFS batch appends exactly the nodes it pops to the
result. -/
theorem bfsInner_res (g : Graph) (curLevel : Int) :
    ∀ (j : Nat) (m : Indeg) (q res : List String) (lvls : LevelsT),
      j ≤ q.length →
      (bfsInner g curLevel j m q res lvls).2.2.1 = res ++ q.take j := by
  intro j
  induction j with
  | zero =>
    intro m q res lvls _
    rw [List.take_zero, List.append_nil]
    rfl
  | succ j ih =>
    intro m q res lvls hle
    cases q with
    | nil => simp at hle
    | cons c q2 =>
      have hstep : bfsInner g curLevel (j + 1) m (c :: q2) res lvls =
          bfsInner g curLevel j (stepSuccs m q2 (succs g c)).1
            (stepSuccs m q2 (succs g c)).2 (res ++ [c])
            (setLevel lvls c curLevel) := rfl
      obtain ⟨ext, hext⟩ := stepSuccs_queue_ext (succs g c) m q2
      have hq2 : j ≤ q2.length := by simpa using hle
      have hlen : j ≤ (stepSuccs m q2 (succs g c)).2.length := by
        rw [hext, List.length_append]
        omega
      have htake : (stepSuccs m q2 (succs g c)).2.take j = q2.take j := by
        rw [hext, List.take_append_eq_append_take]
        have hz : j - q2.length = 0 := by omega
        rw [hz]
        simp
      rw [hstep, ih _ _ _ _ hlen, htake, List.take_succ_cons]
      simp

/-- Helper: the BFS outer loop's result is the seed result followed by
the flattened batches. -/
theorem bfsOuter_res (g : Graph) :
    ∀ (fb : Nat) (m : Indeg) (q res : List String) (lvls : LevelsT)
      (cl : Int) (mx : Nat),
      (bfsOuter g fb m q res lvls cl mx).2.2.1 =
        res ++ (bfsBatches g fb m q).flatten := by
  intro fb
  induction fb with
  | zero =>
    intro m q res lvls cl mx
    simp [bfsOuter, bfsBatches]
  | succ fb ih =>
    intro m q res lvls cl mx
    cases q with
    | nil => simp [bfsOuter, bfsBatches]
    | cons c q2 =>
      have houter : bfsOuter g (fb + 1) m (c :: q2) res lvls cl mx =
          bfsOuter g fb
            (bfsInner g cl (c :: q2).length m (c :: q2) res lvls).1
            (bfsInner g cl (c :: q2).length m (c :: q2) res lvls).2.1
            (bfsInner g cl (c :: q2).length m (c :: q2) res lvls).2.2.1
            (bfsInner g cl (c :: q2).length m (c :: q2) res lvls).2.2.2
            (cl + 1) (max mx (c :: q2).length) := rfl
      have hbat : bfsBatches g (fb + 1) m (c :: q2) =
          (c :: q2) :: bfsBatches g fb
            (bfsInner g 0 (c :: q2).length m (c :: q2) [] []).1
            (bfsInner g 0 (c :: q2).length m (c :: q2) [] []).2.1 := rfl
      obtain ⟨hm, hq⟩ := bfsInner_proj g (c :: q2).length m (c :: q2)
        res lvls cl ([] : List String) ([] : LevelsT) 0
      rw [houter, ih]
      rw [bfsInner_res g cl (c :: q2).length m (c :: q2) res lvls
        (Nat.le_refl _)]
      rw [List.take_length]
      rw [hbat, List.flatten_cons, hm, hq]
      rw [List.append_assoc]

/-- Helper: the BFS outer loop never rewrites the level of a node
outside its batches. -/
theorem bfsOuter_levels_frame (g : Graph) :
    ∀ (fb : Nat) (m : Indeg) (q res : List String) (lvls : LevelsT)
      (cl : Int) (mx : Nat) (w : String),
      w ∉ (bfsBatches g fb m q).flatten →
      levelOf (bfsOuter g fb m q res lvls cl mx).2.2.2.1 w =
        levelOf lvls w := by
  intro fb
  induction fb with
  | zero =>
    intro m q res lvls cl mx w _
    rfl
  | succ fb ih =>
    intro m q res lvls cl mx w hw
    cases q with
    | nil => rfl
    | cons c q2 =>
      have houter : bfsOuter g (fb + 1) m (c :: q2) res lvls cl mx =
          bfsOuter g fb
            (bfsInner g cl (c :: q2).length m (c :: q2) res lvls).1
            (bfsInner g cl (c :: q2).length m (c :: q2) res lvls).2.1
            (bfsInner g cl (c :: q2).length m (c :: q2) res lvls).2.2.1
            (bfsInner g cl (c :: q2).length m (c :: q2) res lvls).2.2.2
            (cl + 1) (max mx (c :: q2).length) := rfl
      have hbat : bfsBatches g (fb + 1) m (c :: q2) =
          (c :: q2) :: bfsBatches g fb
            (bfsInner g 0 (c :: q2).length m (c :: q2) [] []).1
            (bfsInner g 0 (c :: q2).length m (c :: q2) [] []).2.1 := rfl
      rw [hbat, List.flatten_cons] at hw
      simp only [List.mem_append, not_or] at hw
      obtain ⟨hw1, hw2⟩ := hw
      obtain ⟨hm, hq⟩ := bfsInner_proj g (c :: q2).length m (c :: q2)
        res lvls cl ([] : List String) ([] : LevelsT) 0
      rw [houter]
      rw [ih _ _ _ _ _ _ w (by rw [hm, hq]; exact hw2)]
      have hfr := (bfsInner_levels g cl (c :: q2).length m (c :: q2)
        res lvls (Nat.le_refl _)).2 w
        (by rw [List.take_length]; exact hw1)
      exact hfr

/-- Helper: in a duplicate-free batching, the level table of the BFS
outer loop sends each node of batch `k` to level `cl + k`. -/
theorem bfsOuter_levels (g : Graph) :
    ∀ (fb : Nat) (m : Indeg) (q res : List String) (lvls : LevelsT)
      (cl : Int) (mx : Nat),
      (bfsBatches g fb m q).flatten.Nodup →
      ∀ (k : Nat) (b : List String),
        (bfsBatches g fb m q)[k]? = some b →
        ∀ w ∈ b,
          levelOf (bfsOuter g fb m q res lvls cl mx).2.2.2.1 w =
            some (cl + k) := by
  intro fb
  induction fb with
  | zero =>
    intro m q res lvls cl mx _ k b hb
    rw [show bfsBatches g 0 m q = [] from rfl] at hb
    simp at hb
  | succ fb ih =>
    intro m q res lvls cl mx hnd k b hb
    cases q with
    | nil =>
      rw [show bfsBatches g (fb + 1) m [] = [] from rfl] at hb
      simp at hb
    | cons c q2 =>
      have houter : bfsOuter g (fb + 1) m (c :: q2) res lvls cl mx =
          bfsOuter g fb
            (bfsInner g cl (c :: q2).length m (c :: q2) res lvls).1
            (bfsInner g cl (c :: q2).length m (c :: q2) res lvls).2.1
            (bfsInner g cl (c :: q2).length m (c :: q2) res lvls).2.2.1
            (bfsInner g cl (c :: q2).length m (c :: q2) res lvls).2.2.2
            (cl + 1) (max mx (c :: q2).length) := rfl
      have hbat : bfsBatches g (fb + 1) m (c :: q2) =
          (c :: q2) :: bfsBatches g fb
            (bfsInner g 0 (c :: q2).length m (c :: q2) [] []).1
            (bfsInner g 0 (c :: q2).length m (c :: q2) [] []).2.1 := rfl
      obtain ⟨hm, hq⟩ := bfsInner_proj g (c :: q2).length m (c :: q2)
        res lvls cl ([] : List String) ([] : LevelsT) 0
      rw [hbat, List.flatten_cons] at hnd
      rw [hbat] at hb
      rw [houter]
      cases k with
      | zero =>
        rw [List.getElem?_cons_zero] at hb
        injection hb with hb2
        subst hb2
        intro w hw
        have hdisj := (List.nodup_append.mp hnd).2.2
        have hw2 : w ∉ (bfsBatches g fb
            (bfsInner g 0 (c :: q2).length m (c :: q2) [] []).1
            (bfsInner g 0 (c :: q2).length m (c :: q2) [] []).2.1).flatten :=
          fun hcon => hdisj hw hcon
        have hfr := bfsOuter_levels_frame g fb
          (bfsInner g cl (c :: q2).length m (c :: q2) res lvls).1
          (bfsInner g cl (c :: q2).length m (c :: q2) res lvls).2.1
          (bfsInner g cl (c :: q2).length m (c :: q2) res lvls).2.2.1
          (bfsInner g cl (c :: q2).length m (c :: q2) res lvls).2.2.2
          (cl + 1) (max mx (c :: q2).length) w
          (by rw [hm, hq]; exact hw2)
        rw [hfr]
        have h1 := (bfsInner_levels g cl (c :: q2).length m (c :: q2)
          res lvls (Nat.le_refl _)).1 w
          (by rw [List.take_length]; exact hw)
        rw [h1]
        simp
      | succ k2 =>
        rw [List.getElem?_cons_succ] at hb
        intro w hw
        have hcast : cl + 1 + (k2 : Int) = cl + ((k2 + 1 : Nat) : Int) := by
          push_cast
          ring
        rw [← hcast]
        refine ih _ _ _ _ (cl + 1) _ ?_ k2 b ?_ w hw
        · rw [hm, hq]
          exact (List.nodup_append.mp hnd).2.1
        · rw [hm, hq]
          exact hb

/-- C6: whenever the BFS sorter succeeds, its order is exactly the
concatenation of the successive queue snapshots (one batch per outer
iteration, so nodes released during batch `k` wait for batch `k + 1`),
and the returned levels map each node of batch `k` to `k`; in
particular the diamond graph yields order `A, B, C, D` and levels
`A:0, B:1, C:1, D:2`. -/
theorem claim_C6 (t : Int) (g : Graph) (hgnd : (keysOf g).Nodup) :
    (∀ res lvls met, topological_sort_bfs t g = .ok (res, lvls, met) →
      res = (bfsBatches g (loopFuel (computeIndeg g)) (computeIndeg g)
        (seedQueue (computeIndeg g))).flatten ∧
      ∀ (k : Nat) (b : List String),
        (bfsBatches g (loopFuel (computeIndeg g)) (computeIndeg g)
          (seedQueue (computeIndeg g)))[k]? = some b →
        ∀ w ∈ b, levelOf lvls w = some (k : Int)) ∧
    topological_sort_bfs t diamondGraph =
      .ok (["A", "B", "C", "D"],
        [("A", 0), ("B", 1), ("C", 1), ("D", 2)],
        mkBfsMetrics t 4 4 2 2) := by
  constructor
  · cases g with
    | nil =>
      intro res lvls met hok
      injection hok with h2
      injection h2 with hr h3
      injection h3 with hl hm
      constructor
      · rw [← hr]
        rfl
      · intro k b hb w hw
        have hbat : bfsBatches ([] : Graph) (loopFuel (computeIndeg []))
            (computeIndeg []) (seedQueue (computeIndeg [])) =
            ([] : List (List String)) := rfl
        rw [hbat] at hb
        simp at hb
    | cons p g2 =>
      intro res lvls met hok
      rw [topological_sort_bfs] at hok
      rw [if_neg (by simp)] at hok
      by_cases hlen : (kahnDequeued (p :: g2)).length =
          (computeIndeg (p :: g2)).length
      · have hres := bfs_res_eq (p :: g2) hgnd
          ((computeIndeg (p :: g2)).map (fun q => (q.1, (0 : Int))))
          (seedQueue (computeIndeg (p :: g2))).length
        rw [bfsCore] at hok
        rw [hres] at hok
        rw [if_neg (by omega)] at hok
        simp only [Except.map, Except.ok.injEq, Prod.mk.injEq] at hok
        obtain ⟨hr, hl, _⟩ := hok
        have hflat : (bfsBatches (p :: g2) (loopFuel (computeIndeg (p :: g2)))
            (computeIndeg (p :: g2))
            (seedQueue (computeIndeg (p :: g2)))).flatten =
            kahnDequeued (p :: g2) := by
          have h2 := bfsOuter_res (p :: g2) (loopFuel (computeIndeg (p :: g2)))
            (computeIndeg (p :: g2)) (seedQueue (computeIndeg (p :: g2))) []
            ((computeIndeg (p :: g2)).map (fun q => (q.1, (0 : Int)))) 0
            (seedQueue (computeIndeg (p :: g2))).length
          rw [hres] at h2
          rw [List.nil_append] at h2
          exact h2.symm
        constructor
        · rw [← hr]
          exact hflat.symm
        · have hnd2 : (bfsBatches (p :: g2)
              (loopFuel (computeIndeg (p :: g2))) (computeIndeg (p :: g2))
              (seedQueue (computeIndeg (p :: g2)))).flatten.Nodup := by
            rw [hflat]
            exact (kahnDequeued_spec _ hgnd).1
          intro k b hb w hw
          have h3 := bfsOuter_levels (p :: g2)
            (loopFuel (computeIndeg (p :: g2))) (computeIndeg (p :: g2))
            (seedQueue (computeIndeg (p :: g2))) []
            ((computeIndeg (p :: g2)).map (fun q => (q.1, (0 : Int)))) 0
            (seedQueue (computeIndeg (p :: g2))).length hnd2 k b hb w hw
          rw [hl] at h3
          simpa using h3
      · rw [bfsCore_eq_error (p :: g2) hgnd hlen] at hok
        injection hok
  · rfl

/-- Witness for C6 at a concrete input: the diamond graph's keys are
duplicate-free, and the BFS sorter returns its order and batch levels
there. -/
theorem claim_C6_witness :
    (keysOf diamondGraph).Nodup ∧
    topological_sort_bfs 0 diamondGraph =
      .ok (["A", "B", "C", "D"],
        [("A", 0), ("B", 1), ("C", 1), ("D", 2)],
        mkBfsMetrics 0 4 4 2 2) :=
  ⟨by decide, (claim_C6 0 diamondGraph (by decide)).2⟩

end TopoSort
